import Mathlib

/-!
Verification development for the distributed bootstrapping task scheduler of
`mpi_test/src/async_pbs_graph.rs`.

The Rust code is shallowly embedded: the ciphertext type is an arbitrary type
parameter `CT` (ciphertexts are opaque blobs for the scheduler), petgraph's
`Graph` is embedded as a node list plus an edge list (petgraph stores nodes and
edges in arenas and iterates neighbors per edge, so a multigraph neighbor list
can mention the same node several times), and Rust panics (`unwrap`,
`assert!`, `unreachable!`) are embedded as `none` results.  Functions that
mutate the graph before they can panic return the store as it is at the panic
point together with an `Option` holding the normal result.
-/

namespace Mpi

/-! ## Definitions: the shallow embedding of the source -/

/-- Lookup-table selector, from `enum Lut` in the source. -/
inductive Lut
  | ExtractMessage
  | ExtractCarry
  | BivarMulLow
  | BivarMulHigh
  | PrefixSumCarryPropagation
  | DoesBlockGenerateCarry
  | DoesBlockGenerateOrPropagate
deriving DecidableEq

/-- Node state, from `enum Node` in the source (`Computed(Arc<Ciphertext>)`,
`BootsrapQueued`, `ToCompute { lookup_table }`); the `Arc` is transparent. -/
inductive Node (CT : Type)
  | Computed : CT → Node CT
  | BootsrapQueued : Node CT
  | ToCompute : Lut → Node CT
deriving DecidableEq

/-- Embedding of `Node::ct`: the ciphertext of a `Computed` node. -/
def Node.ct {CT : Type} : Node CT → Option CT
  | Node.Computed c => some c
  | _ => none

/-- A directed edge of the petgraph graph: source node index, target node
index, and the `u64` weight. -/
structure Edge where
  src : Nat
  tgt : Nat
  w : Nat
deriving DecidableEq

/-- Outgoing neighbor list of node `i` (`neighbors_directed(i, Outgoing)`);
one entry per edge, so parallel edges repeat the neighbor. -/
def succsE (es : List Edge) (i : Nat) : List Nat :=
  (es.filter (fun e => e.src == i)).map (fun e => e.tgt)

/-- Incoming neighbor list of node `i` (`neighbors_directed(i, Incoming)`);
one entry per edge. -/
def predsE (es : List Edge) (i : Nat) : List Nat :=
  (es.filter (fun e => e.tgt == i)).map (fun e => e.src)

/-- Incoming edges of node `i` (`edges_directed(i, Incoming)`).  petgraph
iterates them most-recently-inserted first; no claim here depends on the
iteration order, so insertion order is used. -/
def incomingE (es : List Edge) (i : Nat) : List Edge :=
  es.filter (fun e => e.tgt == i)

/-- The raw `Graph<Node, u64>` handed to `FheGraph::new`. -/
structure RawGraph (CT : Type) where
  nodes : List (Node CT)
  edges : List Edge
deriving DecidableEq

/-- Number of nodes of a raw graph. -/
def RawGraph.n {CT : Type} (g : RawGraph CT) : Nat := g.nodes.length

/-- Well-formedness guaranteed by petgraph: every edge endpoint is a valid
node index. -/
def RawGraph.WF {CT : Type} (g : RawGraph CT) : Prop :=
  ∀ e ∈ g.edges, e.src < g.n ∧ e.tgt < g.n

/-- Embedding of `struct FheGraph`: `Graph<(Priority, Node), u64>` plus the
counter of not-yet-computed nodes.  `Priority` (from `async_task_graph.rs`,
not part of the sources pack) wraps an `i32`; it is embedded as `Int`. -/
structure FheGraph (CT : Type) where
  nodes : List (Int × Node CT)
  edges : List Edge
  not_computed_nodes_count : Nat
deriving DecidableEq

/-- Number of nodes of an `FheGraph`. -/
def FheGraph.n {CT : Type} (g : FheGraph CT) : Nat := g.nodes.length

/-- Well-formedness guaranteed by petgraph for the mapped graph. -/
def FheGraph.WF {CT : Type} (g : FheGraph CT) : Prop :=
  ∀ e ∈ g.edges, e.src < g.n ∧ e.tgt < g.n

/-- One-step edge relation of an edge list. -/
def EdgeRel (es : List Edge) (i j : Nat) : Prop :=
  ∃ e ∈ es, e.src = i ∧ e.tgt = j

/-- Reachability in one or more steps. -/
def Reaches (es : List Edge) : Nat → Nat → Prop :=
  Relation.TransGen (EdgeRel es)

/-- The graph has no directed cycle. -/
def Acyclic (es : List Edge) : Prop :=
  ∀ i, ¬ Reaches es i i

/-- One expansion step of the reachability closure: add every successor of a
reached node. -/
def stepSet (es : List Edge) (S : Finset Nat) : Finset Nat :=
  S ∪ S.biUnion (fun i => (succsE es i).toFinset)

/-- Iterated expansion of the reachability closure. -/
def reachSet (es : List Edge) : Nat → Finset Nat → Finset Nat
  | 0, S => S
  | k + 1, S => reachSet es k (stepSet es S)

/-- Model of `petgraph::algo::is_cyclic_directed` on a graph with `n` nodes:
some node reaches itself through at least one edge. -/
def isCyclicDirected (n : Nat) (es : List Edge) : Bool :=
  decide (∃ i ∈ Finset.range n, i ∈ reachSet es n (succsE es i).toFinset)

/-- Collecting an iterator of fallible items into a fallible list
(`collect::<Option<Vec<_>>>` / traversing with a possible panic): `none` as
soon as one item fails. -/
def mapO {α β : Type} (f : α → Option β) : List α → Option (List β)
  | [] => some []
  | a :: l =>
    match f a with
    | none => none
    | some b => (mapO f l).map (fun bs => b :: bs)

/-- Whether a node state is `Computed` (`matches!(node, Node::Computed(_))`). -/
def Node.isComputedB {CT : Type} : Node CT → Bool
  | Node.Computed _ => true
  | _ => false

/-- Whether a node state is `ToCompute`. -/
def Node.isToComputeB {CT : Type} : Node CT → Bool
  | Node.ToCompute _ => true
  | _ => false

/-- Whether a node state is `BootsrapQueued`. -/
def Node.isQueuedB {CT : Type} : Node CT → Bool
  | Node.BootsrapQueued => true
  | _ => false

/-- Embedding of `insert_predecessors_recursively`.  The memo table
`HashMap<usize, i32>` is an association list; an entry is only ever inserted
under the `!contains_key` guard, so prepending is a faithful insert.  The
source recursion is unbounded but each nested call that passes the guard
inserts a fresh key, so its depth is bounded by the node count; the `fuel`
argument (instantiated with `n + 1` by `FheGraph.new`) therefore never runs
out on the calls the source performs.  Under the `all contains_key` guard the
`getD 0` lookups equal the source's panicking `depths[&s]` indexing. -/
def insert_predecessors_recursively {CT : Type} (g : RawGraph CT) :
    Nat → List (Nat × Int) → Nat → List (Nat × Int)
  | 0, m, _ => m
  | fuel + 1, m, i =>
    if (List.lookup i m).isSome then m
    else if (succsE g.edges i).all (fun s => (List.lookup s m).isSome) then
      (predsE g.edges i).foldl
        (fun acc p => insert_predecessors_recursively g fuel acc p)
        ((i, (((succsE g.edges i).map
          (fun s => (List.lookup s m).getD 0)).max?).getD 0 + 1) :: m)
    else m

/-- The `successors_max_depth` table of `FheGraph::new`: for every sink
(node with no outgoing edge), run the backward priority propagation
`insert_predecessors_recursively`. -/
def depthsD {CT : Type} (g : RawGraph CT) : List (Nat × Int) :=
  ((List.range g.n).filter (fun i => (succsE g.edges i).isEmpty)).foldl
    (fun m i => insert_predecessors_recursively g (g.n + 1) m i) []

/-- Embedding of `FheGraph::new`: count the not-`Computed` nodes, then map
every node to its `(Priority, Node)` pair using the depth table; the
source's `successors_max_depth[&node_index]` indexing panics when a node
never received a depth (e.g. on a cyclic graph): the `none` result. -/
def FheGraph.new {CT : Type} (g : RawGraph CT) : Option (FheGraph CT) :=
  let cnt := (g.nodes.filter (fun nd => !nd.isComputedB)).length
  match mapO (fun i => List.lookup i (depthsD g)) (List.range g.n) with
  | none => none
  | some ds => some ⟨ds.zip g.nodes, g.edges, cnt⟩

/-- Overwrite the node stored at index `i`
(the `*self.graph.node_weight_mut(i).unwrap() = ...` pattern). -/
def setNode {CT : Type} (g : FheGraph CT) (i : Nat) (pn : Int × Node CT) :
    FheGraph CT :=
  { g with nodes := g.nodes.set i pn }

/-- State of the node at index `i` is `Computed` (false also when `i` is out
of range, which the source never asks on graphs it builds). -/
def isComputedAt {CT : Type} (g : FheGraph CT) (i : Nat) : Bool :=
  match g.nodes[i]? with
  | some (_, Node.Computed _) => true
  | _ => false

/-- State of the node at index `i` is `ToCompute`. -/
def isToComputeAt {CT : Type} (g : FheGraph CT) (i : Nat) : Bool :=
  match g.nodes[i]? with
  | some (_, Node.ToCompute _) => true
  | _ => false

/-- State of the node at index `i` is `BootsrapQueued`. -/
def isQueuedAt {CT : Type} (g : FheGraph CT) (i : Nat) : Bool :=
  match g.nodes[i]? with
  | some (_, Node.BootsrapQueued) => true
  | _ => false

/-- All predecessors of node `i` are `Computed` (the readiness test used by
`init` and `commit_result`). -/
def allPredsComputed {CT : Type} (g : FheGraph CT) (i : Nat) : Bool :=
  (predsE g.edges i).all (fun p => isComputedAt g p)

/-- Embedding of `FheGraph::test_graph_init`: panics unless the graph is
acyclic, every source node is `Computed` and every non-source node is
`ToCompute`.  `true` means the assertions pass. -/
def test_graph_init {CT : Type} (g : FheGraph CT) : Bool :=
  !isCyclicDirected g.n g.edges &&
    (List.range g.n).all (fun i =>
      if (predsE g.edges i).isEmpty then isComputedAt g i else isToComputeAt g i)

/-- Embedding of `FheGraph::assert_finishable`: panics unless the graph is
acyclic and every source node is `Computed`. -/
def assert_finishable {CT : Type} (g : FheGraph CT) : Bool :=
  !isCyclicDirected g.n g.edges &&
    (List.range g.n).all (fun i =>
      if (predsE g.edges i).isEmpty then isComputedAt g i else true)

/-- Embedding of `FheGraph::predecessors_list`: the `(weight, ciphertext)`
pair of every incoming edge; `none` when some predecessor is not `Computed`
(the source's `.ct().unwrap()` panic). -/
def predecessors_list {CT : Type} (g : FheGraph CT) (i : Nat) :
    Option (List (Nat × CT)) :=
  mapO (fun e =>
    (g.nodes[e.src]?).bind (fun pn => pn.2.ct.map (fun c => (e.w, c))))
    (incomingE g.edges i)

/-- Embedding of the task record `IndexedCtsAndLut`. -/
structure IndexedCtsAndLut (CT : Type) where
  index : Nat
  cts_and_weights : List (Nat × CT)
  lut : Lut
deriving DecidableEq

/-- Embedding of `IndexedCtAndLut` (multisum output, bootstrap input). -/
structure IndexedCtAndLut (CT : Type) where
  index : Nat
  ct : CT
  lut : Lut
deriving DecidableEq

/-- Embedding of the result record `IndexedCt`. -/
structure IndexedCt (CT : Type) where
  index : Nat
  ct : CT
deriving DecidableEq

/-- Embedding of `FheGraph::build_task`: snapshot the predecessor list and
the lookup table, mark the node `BootsrapQueued`, and pair the task with
`Priority(0)`.  The `unreachable!` on a node that is not `ToCompute`, and the
`unwrap` inside `predecessors_list`, are `none` results; both happen before
the node mutation, so the store is returned unchanged then. -/
def build_task {CT : Type} (g : FheGraph CT) (i : Nat) :
    FheGraph CT × Option (Int × IndexedCtsAndLut CT) :=
  match predecessors_list g i with
  | none => (g, none)
  | some cw =>
    match g.nodes[i]? with
    | some (p, Node.ToCompute lut) =>
      (setNode g i (p, Node.BootsrapQueued), some (0, ⟨i, cw, lut⟩))
    | _ => (g, none)

/-- The `nodes_to_compute.into_iter().map(|i| self.build_task(i)).collect()`
pattern shared by `init` and `commit_result`: build the tasks left to right,
stopping at the first panic and returning the store as mutated so far. -/
def build_tasks {CT : Type} (g : FheGraph CT) :
    List Nat → FheGraph CT × Option (List (Int × IndexedCtsAndLut CT))
  | [] => (g, some [])
  | i :: rest =>
    match build_task g i with
    | (g', none) => (g', none)
    | (g', some t) =>
      match build_tasks g' rest with
      | (g'', none) => (g'', none)
      | (g'', some ts) => (g'', some (t :: ts))

/-- Embedding of `<FheGraph as TaskGraph>::init`: assert `test_graph_init`,
then build one task per `ToCompute` node whose predecessors are all
`Computed`. -/
def FheGraph.init {CT : Type} (g : FheGraph CT) :
    FheGraph CT × Option (List (Int × IndexedCtsAndLut CT)) :=
  if test_graph_init g then
    build_tasks g ((List.range g.n).filter
      (fun i => isToComputeAt g i && allPredsComputed g i))
  else (g, none)

/-- Embedding of `<FheGraph as TaskGraph>::commit_result`.  The counter is
decremented before anything is checked, exactly as in the source; the node
must then be `BootsrapQueued`, is set to `Computed`, every successor is
asserted `ToCompute`, and tasks are built for the successors whose
predecessors are now all `Computed` (one entry per edge, so a parallel edge
repeats its target). -/
def commit_result {CT : Type} (g : FheGraph CT) (result : IndexedCt CT) :
    FheGraph CT × Option (List (Int × IndexedCtsAndLut CT)) :=
  let g1 : FheGraph CT :=
    { g with not_computed_nodes_count := g.not_computed_nodes_count - 1 }
  match g1.nodes[result.index]? with
  | some (p, Node.BootsrapQueued) =>
    let g2 : FheGraph CT := setNode g1 result.index (p, Node.Computed result.ct)
    if (succsE g2.edges result.index).all (fun s => isToComputeAt g2 s) then
      build_tasks g2
        ((succsE g2.edges result.index).filter (fun s => allPredsComputed g2 s))
    else (g2, none)
  | _ => (g1, none)

/-- Embedding of `FheGraph::is_finished`. -/
def is_finished {CT : Type} (g : FheGraph CT) : Bool :=
  g.not_computed_nodes_count == 0

/-- The number of nodes whose state is not `Computed` (the quantity
`FheGraph::new` stores into `not_computed_nodes_count`). -/
def count_not_computed {CT : Type} (g : FheGraph CT) : Nat :=
  (g.nodes.filter (fun pn => !pn.2.isComputedB)).length

/-- Embedding of `IndexedCtsAndLut::multisum`, generic in the opaque
ciphertext operations.  The `u64` weights are truncated to `u8` at the call
sites (`scalar as u8`), hence the `% 256`.  The `unwrap` on an empty
predecessor list is the `none` result. -/
def multisum {CT : Type} (scalar_mul : CT → Nat → CT)
    (add_scalar_mul : CT → CT → Nat → CT) (t : IndexedCtsAndLut CT) :
    Option (IndexedCtAndLut CT) :=
  match t.cts_and_weights with
  | [] => none
  | (w, c) :: rest =>
    some ⟨t.index,
      rest.foldl (fun acc p => add_scalar_mul acc p.2 (p.1 % 256))
        (scalar_mul c (w % 256)),
      t.lut⟩

/-- Embedding of `IndexedCtAndLut::pbs`: apply the selected lookup table,
keep the index. -/
def pbs {CT : Type} (apply_lookup_table : CT → Lut → CT)
    (t : IndexedCtAndLut CT) : IndexedCt CT :=
  ⟨t.index, apply_lookup_table t.ct t.lut⟩

/-- Modelled from the spec: `ServerKey::unchecked_scalar_mul` (the tfhe
shortint server key, not part of the sources pack) scales a ciphertext by a
small scalar; the spec calls the underlying structure an additive
homomorphism, so ciphertexts are modelled as integers and scaling as
multiplication. -/
def scalar_mul_int (c : Int) (w : Nat) : Int := (w : Int) * c

/-- Modelled from the spec: `ServerKey::unchecked_add_scalar_mul_assign`
adds a scaled ciphertext into the accumulator (additive homomorphism). -/
def add_scalar_mul_int (acc c : Int) (w : Nat) : Int := acc + (w : Int) * c

/-- The running weighted accumulation described by the spec: accumulate each
remaining `(weight, ciphertext)` pair into the accumulator, in list order. -/
def running_weighted_accum {CT : Type} (add_scalar_mul : CT → CT → Nat → CT)
    (acc : CT) : List (Nat × CT) → CT
  | [] => acc
  | p :: rest => running_weighted_accum add_scalar_mul
      (add_scalar_mul acc p.2 (p.1 % 256)) rest

/-- A node with one computed and one uncomputed predecessor, used to witness
the predecessor-list specification. -/
def wG : FheGraph Int :=
  ⟨[(3, Node.Computed 11), (2, Node.BootsrapQueued),
    (1, Node.ToCompute Lut.ExtractMessage), (1, Node.ToCompute Lut.ExtractCarry)],
   [⟨0, 2, 4⟩, ⟨0, 3, 5⟩, ⟨1, 3, 6⟩], 3⟩

/-- A single `ToCompute` node with counter 1,
for the wrong-state commit claims. -/
def qG : FheGraph Int := ⟨[(1, Node.ToCompute Lut.ExtractMessage)], [], 1⟩

/-- The two-node chain `0 (Computed) → 1 (ToCompute)`: node 1 stores
priority 1 and node 0 stores priority 2. -/
def cRaw : RawGraph Int :=
  ⟨[Node.Computed 9, Node.ToCompute Lut.ExtractCarry], [⟨0, 1, 2⟩]⟩

/-- Two computed nodes joined by an edge: acyclic, the only source is
`Computed`, yet `test_graph_init` fails because the non-source node 1 is
`Computed` rather than `ToCompute`. -/
def bG : FheGraph Int :=
  ⟨[(2, Node.Computed 1), (1, Node.Computed 2)], [⟨0, 1, 1⟩], 0⟩

/-- The successors of node `i` that become ready once `i` itself is
`Computed`: successors every one of whose predecessors is either `i` or
already `Computed` (one entry per edge). -/
def readySuccs {CT : Type} (g : FheGraph CT) (i : Nat) : List Nat :=
  (succsE g.edges i).filter (fun s =>
    (predsE g.edges s).all (fun q => q == i || isComputedAt g q))

/-- The 4-node diamond `0 → 1, 0 → 2, 1 → 3, 2 → 3` with node 0 `Computed`,
before construction. -/
def dRaw : RawGraph Int :=
  ⟨[Node.Computed 10, Node.ToCompute Lut.ExtractMessage,
    Node.ToCompute Lut.ExtractMessage, Node.ToCompute Lut.ExtractMessage],
   [⟨0, 1, 1⟩, ⟨0, 2, 1⟩, ⟨1, 3, 1⟩, ⟨2, 3, 1⟩]⟩

/-- The diamond as `FheGraph::new` builds it (priorities 3, 2, 2, 1). -/
def dG : FheGraph Int :=
  ⟨[(3, Node.Computed 10), (2, Node.ToCompute Lut.ExtractMessage),
    (2, Node.ToCompute Lut.ExtractMessage), (1, Node.ToCompute Lut.ExtractMessage)],
   [⟨0, 1, 1⟩, ⟨0, 2, 1⟩, ⟨1, 3, 1⟩, ⟨2, 3, 1⟩], 3⟩

/-- The diamond after `init` (nodes 1 and 2 queued). -/
def dG1 : FheGraph Int := (FheGraph.init dG).1

/-- The diamond after committing node 1 first. -/
def dG2b : FheGraph Int := (commit_result dG1 ⟨1, 20⟩).1

/-- The diamond after committing node 1 then node 2. -/
def dG3b : FheGraph Int := (commit_result dG2b ⟨2, 30⟩).1

/-- The diamond after committing node 2 first. -/
def dG2c : FheGraph Int := (commit_result dG1 ⟨2, 30⟩).1

/-- The diamond after committing node 2 then node 1. -/
def dG3c : FheGraph Int := (commit_result dG2c ⟨1, 20⟩).1

/-- The diamond after also committing the sink node 3. -/
def dG4 : FheGraph Int := (commit_result dG3b ⟨3, 40⟩).1

/-- A single isolated `Computed` node, before construction. -/
def sRaw : RawGraph Int := ⟨[Node.Computed 5], []⟩

/-- The single isolated `Computed` node as `FheGraph::new` builds it. -/
def sG : FheGraph Int := ⟨[(1, Node.Computed 5)], [], 0⟩

/-- A queued node 0 with two parallel edges to a `ToCompute` node 1. -/
def pG : FheGraph Int :=
  ⟨[(0, Node.BootsrapQueued), (0, Node.ToCompute Lut.ExtractMessage)],
   [⟨0, 1, 1⟩, ⟨0, 1, 1⟩], 2⟩

/-- The priority stored on node `i` of a constructed graph (0 when `i` is
out of range, which does not occur on constructed graphs). -/
def priorityAt {CT : Type} (g : FheGraph CT) (i : Nat) : Int :=
  ((g.nodes[i]?).map Prod.fst).getD 0

/-- One depth table extends another: every binding of the first is a binding
of the second. -/
def SubMap (m m' : List (Nat × Int)) : Prop :=
  ∀ k v, List.lookup k m = some v → List.lookup k m' = some v

/-- The invariant of the depth table built by
`insert_predecessors_recursively`: every bound node has all its successors
bound, with depth one plus their maximum (zero when there are none). -/
def InvD {CT : Type} (g : RawGraph CT) (m : List (Nat × Int)) : Prop :=
  ∀ p v, List.lookup p m = some v →
    (∀ s ∈ succsE g.edges p, (List.lookup s m).isSome = true) ∧
    v = (((succsE g.edges p).map
      (fun s => (List.lookup s m).getD 0)).max?).getD 0 + 1

/-- A node is overdue in a depth table when all its successors are bound but
it is not; the algorithm never leaves a node overdue. -/
def BadD {CT : Type} (g : RawGraph CT) (m : List (Nat × Int)) (p : Nat) : Prop :=
  (∀ s ∈ succsE g.edges p, (List.lookup s m).isSome = true) ∧
  List.lookup p m = none

/-! ## Theorems -/


theorem mem_succsE {es : List Edge} {i j : Nat} :
    j ∈ succsE es i ↔ ∃ e ∈ es, e.src = i ∧ e.tgt = j := by
  simp only [succsE, List.mem_map, List.mem_filter, beq_iff_eq]
  constructor
  · rintro ⟨e, ⟨he, hs⟩, ht⟩; exact ⟨e, he, hs, ht⟩
  · rintro ⟨e, he, hs, ht⟩; exact ⟨e, ⟨he, hs⟩, ht⟩

theorem mem_predsE {es : List Edge} {i j : Nat} :
    j ∈ predsE es i ↔ ∃ e ∈ es, e.tgt = i ∧ e.src = j := by
  simp only [predsE, List.mem_map, List.mem_filter, beq_iff_eq]
  constructor
  · rintro ⟨e, ⟨he, ht⟩, hs⟩; exact ⟨e, he, ht, hs⟩
  · rintro ⟨e, he, ht, hs⟩; exact ⟨e, ⟨he, ht⟩, hs⟩

theorem subset_stepSet (es : List Edge) (S : Finset Nat) : S ⊆ stepSet es S :=
  Finset.subset_union_left

theorem mem_stepSet {es : List Edge} {S : Finset Nat} {j : Nat} :
    j ∈ stepSet es S ↔ j ∈ S ∨ ∃ s ∈ S, EdgeRel es s j := by
  simp only [stepSet, Finset.mem_union, Finset.mem_biUnion, List.mem_toFinset]
  constructor
  · rintro (h | ⟨s, hs, hj⟩)
    · exact Or.inl h
    · exact Or.inr ⟨s, hs, mem_succsE.mp hj⟩
  · rintro (h | ⟨s, hs, hj⟩)
    · exact Or.inl h
    · exact Or.inr ⟨s, hs, mem_succsE.mpr hj⟩

theorem reachSet_succ_comm (es : List Edge) (k : Nat) (S : Finset Nat) :
    reachSet es (k + 1) S = stepSet es (reachSet es k S) := by
  induction k generalizing S with
  | zero => rfl
  | succ k ih =>
    show reachSet es (k + 1) (stepSet es S) = _
    rw [ih (stepSet es S)]
    rfl

theorem subset_reachSet (es : List Edge) (k : Nat) (S : Finset Nat) :
    S ⊆ reachSet es k S := by
  induction k generalizing S with
  | zero => exact fun x h => h
  | succ k ih =>
    exact fun x hx => ih (stepSet es S) (subset_stepSet es S hx)

theorem reachSet_mono_subset (es : List Edge) (k : Nat) {S T : Finset Nat}
    (h : S ⊆ T) : reachSet es k S ⊆ reachSet es k T := by
  induction k generalizing S T with
  | zero => exact h
  | succ k ih =>
    apply ih
    intro x hx
    rcases mem_stepSet.mp hx with h1 | ⟨s, hs, he⟩
    · exact subset_stepSet es T (h h1)
    · exact mem_stepSet.mpr (Or.inr ⟨s, h hs, he⟩)

theorem reachSet_subset_univ {es : List Edge} {U S : Finset Nat}
    (hS : S ⊆ U) (hU : ∀ e ∈ es, e.tgt ∈ U) (k : Nat) :
    reachSet es k S ⊆ U := by
  induction k generalizing S with
  | zero => exact hS
  | succ k ih =>
    apply ih
    intro x hx
    rcases mem_stepSet.mp hx with h1 | ⟨s, _, e, he, _, ht⟩
    · exact hS h1
    · exact ht ▸ hU e he

theorem reachSet_fixed_of_eq {es : List Edge} {S : Finset Nat} {k : Nat}
    (h : reachSet es (k + 1) S = reachSet es k S) :
    ∀ m, k ≤ m → reachSet es m S = reachSet es k S := by
  intro m hm
  induction m with
  | zero => cases Nat.le_zero.mp hm; rfl
  | succ m ih =>
    rcases Nat.lt_or_ge k (m + 1) with hlt | hge
    · have hkm : k ≤ m := Nat.lt_succ_iff.mp hlt
      have := ih hkm
      calc reachSet es (m + 1) S = stepSet es (reachSet es m S) :=
            reachSet_succ_comm es m S
        _ = stepSet es (reachSet es k S) := by rw [this]
        _ = reachSet es (k + 1) S := (reachSet_succ_comm es k S).symm
        _ = reachSet es k S := h
    · have : k = m + 1 := Nat.le_antisymm hm hge
      rw [this]

theorem reachSet_card_grow {es : List Edge} {S : Finset Nat} (k : Nat)
    (h : ∀ j < k, reachSet es (j + 1) S ≠ reachSet es j S) :
    S.card + k ≤ (reachSet es k S).card := by
  induction k with
  | zero => simp [reachSet]
  | succ k ih =>
    have hsub : reachSet es k S ⊆ reachSet es (k + 1) S := by
      rw [reachSet_succ_comm]
      exact subset_stepSet es _
    have hne : reachSet es k S ≠ reachSet es (k + 1) S :=
      fun he => h k (Nat.lt_succ_self k) he.symm
    have hlt : (reachSet es k S).card < (reachSet es (k + 1) S).card :=
      Finset.card_lt_card (Finset.ssubset_iff_subset_ne.mpr ⟨hsub, hne⟩)
    have := ih (fun j hj => h j (Nat.lt_succ_of_lt hj))
    omega

/-- The closure saturates within `U.card` iterations when it lives inside
`U`. -/
theorem reachSet_saturates {es : List Edge} {U S : Finset Nat}
    (hS : S ⊆ U) (hU : ∀ e ∈ es, e.tgt ∈ U) :
    ∀ m, U.card ≤ m → reachSet es m S = reachSet es U.card S := by
  have hex : ∃ k ≤ U.card, reachSet es (k + 1) S = reachSet es k S := by
    by_contra hno
    push_neg at hno
    have : S.card + (U.card + 1) ≤ (reachSet es (U.card + 1) S).card :=
      reachSet_card_grow (U.card + 1) (fun j hj => hno j (Nat.lt_succ_iff.mp hj))
    have hsub : reachSet es (U.card + 1) S ⊆ U := reachSet_subset_univ hS hU _
    have hcard := Finset.card_le_card hsub
    omega
  rcases hex with ⟨k, hk, hfix⟩
  intro m hm
  rw [reachSet_fixed_of_eq hfix m (Nat.le_trans hk hm),
      reachSet_fixed_of_eq hfix U.card hk]

theorem reachSet_sound {es : List Edge} {S : Finset Nat} {j : Nat} (k : Nat)
    (h : j ∈ reachSet es k S) : j ∈ S ∨ ∃ s ∈ S, Reaches es s j := by
  induction k generalizing S with
  | zero => exact Or.inl h
  | succ k ih =>
    rcases ih (S := stepSet es S) h with h1 | ⟨s, hs, hr⟩
    · rcases mem_stepSet.mp h1 with h2 | ⟨s, hs, he⟩
      · exact Or.inl h2
      · exact Or.inr ⟨s, hs, Relation.TransGen.single he⟩
    · rcases mem_stepSet.mp hs with h2 | ⟨t, ht, he⟩
      · exact Or.inr ⟨s, h2, hr⟩
      · exact Or.inr ⟨t, ht, Relation.TransGen.head he hr⟩

theorem reachSet_closed {es : List Edge} {U S : Finset Nat}
    (hS : S ⊆ U) (hU : ∀ e ∈ es, e.tgt ∈ U) {m : Nat} (hm : U.card ≤ m)
    {j t : Nat} (hj : j ∈ reachSet es m S) (he : EdgeRel es j t) :
    t ∈ reachSet es m S := by
  have hfix : stepSet es (reachSet es m S) = reachSet es m S := by
    have h1 := reachSet_saturates hS hU m hm
    have h2 := reachSet_saturates hS hU (m + 1) (Nat.le_succ_of_le hm)
    calc stepSet es (reachSet es m S) = reachSet es (m + 1) S :=
          (reachSet_succ_comm es m S).symm
      _ = reachSet es U.card S := h2
      _ = reachSet es m S := h1.symm
  rw [← hfix]
  exact mem_stepSet.mpr (Or.inr ⟨j, hj, he⟩)

theorem reachSet_complete {es : List Edge} {U S : Finset Nat}
    (hS : S ⊆ U) (hU : ∀ e ∈ es, e.tgt ∈ U) {m : Nat} (hm : U.card ≤ m)
    {s j : Nat} (hs : s ∈ S) (hr : Reaches es s j) :
    j ∈ reachSet es m S := by
  induction hr with
  | single he =>
    exact reachSet_closed hS hU hm (subset_reachSet es m S hs) he
  | tail _ he ih => exact reachSet_closed hS hU hm ih he

/-- The computable cyclicity check decides the existence of a directed
cycle, on well-formed edge lists. -/
theorem isCyclicDirected_iff {n : Nat} {es : List Edge}
    (hwf : ∀ e ∈ es, e.src < n ∧ e.tgt < n) :
    isCyclicDirected n es = true ↔ ∃ i, Reaches es i i := by
  have hU : ∀ e ∈ es, e.tgt ∈ Finset.range n :=
    fun e he => Finset.mem_range.mpr (hwf e he).2
  have hcard : (Finset.range n).card ≤ n := by simp
  constructor
  · intro h
    rcases decide_eq_true_iff.mp h with ⟨i, _, hmem⟩
    rcases reachSet_sound n hmem with h1 | ⟨s, hs, hr⟩
    · exact ⟨i, Relation.TransGen.single (mem_succsE.mp (List.mem_toFinset.mp h1))⟩
    · exact ⟨i, Relation.TransGen.head (mem_succsE.mp (List.mem_toFinset.mp hs)) hr⟩
  · rintro ⟨i, hr⟩
    apply decide_eq_true_iff.mpr
    have hS : (succsE es i).toFinset ⊆ Finset.range n := by
      intro x hx
      rcases mem_succsE.mp (List.mem_toFinset.mp hx) with ⟨e, he, _, ht⟩
      exact Finset.mem_range.mpr (ht ▸ (hwf e he).2)
    rcases Relation.TransGen.head'_iff.mp hr with ⟨c, hc, hr'⟩
    rcases hc with ⟨e, hee, hsrc, htgt⟩
    refine ⟨i, Finset.mem_range.mpr (hsrc ▸ (hwf e hee).1), ?_⟩
    have hcmem : c ∈ (succsE es i).toFinset :=
      List.mem_toFinset.mpr (mem_succsE.mpr ⟨e, hee, hsrc, htgt⟩)
    rcases Relation.reflTransGen_iff_eq_or_transGen.mp hr' with rfl | htr
    · exact subset_reachSet es n _ hcmem
    · exact reachSet_complete hS hU hcard hcmem htr

theorem mapO_eq_none_iff {α β : Type} (f : α → Option β) (l : List α) :
    mapO f l = none ↔ ∃ a ∈ l, f a = none := by
  induction l with
  | nil => simp [mapO]
  | cons a l ih =>
    simp only [mapO]
    cases hfa : f a with
    | none => simp [hfa]
    | some b =>
      cases hl : mapO f l with
      | none => simp [ih.mp hl, Option.map_none, hfa]
      | some bs =>
        simp only [Option.map_some]
        constructor
        · intro h; cases h
        · rintro ⟨x, hx, hfx⟩
          rcases List.mem_cons.mp hx with rfl | hx'
          · rw [hfa] at hfx; cases hfx
          · have := (ih.mpr ⟨x, hx', hfx⟩)
            rw [hl] at this; cases this

theorem mapO_eq_some_get {α β : Type} (f : α → Option β) (l : List α)
    {bs : List β} (h : mapO f l = some bs) :
    bs.length = l.length ∧ ∀ (k : Nat) a, l[k]? = some a → ∃ b, f a = some b ∧ bs[k]? = some b := by
  induction l generalizing bs with
  | nil =>
    simp only [mapO] at h
    cases h
    simp
  | cons a l ih =>
    simp only [mapO] at h
    cases hfa : f a with
    | none => rw [hfa] at h; cases h
    | some b =>
      rw [hfa] at h
      cases hl : mapO f l with
      | none => rw [hl] at h; cases h
      | some bs' =>
        rw [hl] at h
        simp only [Option.map_some] at h
        cases h
        rcases ih hl with ⟨hlen, hget⟩
        refine ⟨by simp [hlen], ?_⟩
        intro k x hk
        cases k with
        | zero =>
          rw [List.getElem?_cons_zero] at hk ⊢
          cases hk
          exact ⟨b, hfa, rfl⟩
        | succ k =>
          rw [List.getElem?_cons_succ] at hk ⊢
          exact hget k x hk

theorem running_weighted_accum_eq_foldl {CT : Type}
    (add_scalar_mul : CT → CT → Nat → CT) (l : List (Nat × CT)) (acc : CT) :
    running_weighted_accum add_scalar_mul acc l =
      l.foldl (fun a p => add_scalar_mul a p.2 (p.1 % 256)) acc := by
  induction l generalizing acc with
  | nil => rfl
  | cons p l ih => simp [running_weighted_accum, List.foldl_cons, ih]

/-- Claim C7: `multisum` panics on an empty list of `(weight, ciphertext)`
pairs; on a non-empty list it returns the running weighted accumulation that
starts from the first ciphertext scaled by its weight and accumulates the
remaining pairs in list order, and it preserves the task's node index and
lookup-table selector. -/
theorem multisum_spec {CT : Type} (scalar_mul : CT → Nat → CT)
    (add_scalar_mul : CT → CT → Nat → CT) (t : IndexedCtsAndLut CT) :
    (multisum scalar_mul add_scalar_mul t = none ↔ t.cts_and_weights = []) ∧
    (∀ w c rest, t.cts_and_weights = (w, c) :: rest →
      multisum scalar_mul add_scalar_mul t =
        some ⟨t.index,
          running_weighted_accum add_scalar_mul (scalar_mul c (w % 256)) rest,
          t.lut⟩) := by
  constructor
  · cases h : t.cts_and_weights with
    | nil => simp [multisum, h]
    | cons p rest =>
      obtain ⟨w, c⟩ := p
      simp [multisum, h]
  · intro w c rest h
    simp [multisum, h, running_weighted_accum_eq_foldl]

/-- Witness for C7: a concrete two-element task over integer ciphertexts. -/
theorem multisum_spec_witness :
    (multisum scalar_mul_int add_scalar_mul_int
        (⟨4, [], Lut.ExtractMessage⟩ : IndexedCtsAndLut Int) = none) ∧
    multisum scalar_mul_int add_scalar_mul_int
        (⟨4, [(3, 5), (2, 7)], Lut.ExtractMessage⟩ : IndexedCtsAndLut Int) =
      some ⟨4, running_weighted_accum add_scalar_mul_int
        (scalar_mul_int 5 (3 % 256)) [(2, 7)], Lut.ExtractMessage⟩ := by
  have h := multisum_spec scalar_mul_int add_scalar_mul_int
    (⟨4, [(3, 5), (2, 7)], Lut.ExtractMessage⟩ : IndexedCtsAndLut Int)
  have h0 := multisum_spec scalar_mul_int add_scalar_mul_int
    (⟨4, [], Lut.ExtractMessage⟩ : IndexedCtsAndLut Int)
  exact ⟨h0.1.mpr rfl, h.2 3 5 [(2, 7)] rfl⟩

theorem foldl_add_scalar_mul_int (l : List (Nat × Int)) (x : Int) :
    l.foldl (fun a p => add_scalar_mul_int a p.2 (p.1 % 256)) x =
      x + (l.map (fun p => ((p.1 % 256 : Nat) : Int) * p.2)).sum := by
  induction l generalizing x with
  | nil => simp
  | cons p l ih =>
    rw [List.foldl_cons, ih, List.map_cons, List.sum_cons, add_scalar_mul_int]
    ring

theorem multisum_int_eq_sum (idx : Nat) (lut : Lut) (w : Nat) (c : Int)
    (rest : List (Nat × Int)) :
    multisum scalar_mul_int add_scalar_mul_int ⟨idx, (w, c) :: rest, lut⟩ =
      some ⟨idx, (((w, c) :: rest).map
        (fun p => ((p.1 % 256 : Nat) : Int) * p.2)).sum, lut⟩ := by
  simp only [multisum, foldl_add_scalar_mul_int, scalar_mul_int,
    List.map_cons, List.sum_cons]

/-- Claim C9: for every non-empty list of `(weight, ciphertext)` pairs over
the additive-homomorphism ciphertext model, every lookup-table selector and
every permutation of the list, multisum followed by the bootstrap yields the
same final result. -/
theorem multisum_pbs_perm (apply_lookup_table : Int → Lut → Int) (idx : Nat)
    (lut : Lut) (l l' : List (Nat × Int)) (hp : l.Perm l') (hne : l ≠ []) :
    (multisum scalar_mul_int add_scalar_mul_int ⟨idx, l, lut⟩).map
        (pbs apply_lookup_table) =
      (multisum scalar_mul_int add_scalar_mul_int ⟨idx, l', lut⟩).map
        (pbs apply_lookup_table) := by
  cases l with
  | nil => exact absurd rfl hne
  | cons p rest =>
    cases hl' : l' with
    | nil =>
      rw [hl'] at hp
      cases hp.eq_nil
    | cons p' rest' =>
      obtain ⟨w, c⟩ := p
      obtain ⟨w', c'⟩ := p'
      rw [multisum_int_eq_sum, multisum_int_eq_sum]
      have hsum : (((w, c) :: rest).map
            (fun p => ((p.1 % 256 : Nat) : Int) * p.2)).sum =
          (((w', c') :: rest').map
            (fun p => ((p.1 % 256 : Nat) : Int) * p.2)).sum := by
        have := (hl' ▸ hp).map (fun p : Nat × Int => ((p.1 % 256 : Nat) : Int) * p.2)
        exact this.sum_eq
      rw [hsum]

theorem pl_item_none_iff {CT : Type} (g : FheGraph CT) (e : Edge) :
    (g.nodes[e.src]?).bind (fun pn => pn.2.ct.map (fun c => (e.w, c))) = none
      ↔ isComputedAt g e.src = false := by
  cases h : g.nodes[e.src]? with
  | none => simp [isComputedAt, h]
  | some pn =>
    obtain ⟨p, nd⟩ := pn
    cases nd <;> simp [isComputedAt, h, Node.ct]

theorem pl_item_some {CT : Type} (g : FheGraph CT) (e : Edge)
    (h : isComputedAt g e.src = true) :
    ∃ p c, g.nodes[e.src]? = some (p, Node.Computed c) ∧
      (g.nodes[e.src]?).bind (fun pn => pn.2.ct.map (fun cc => (e.w, cc)))
        = some (e.w, c) := by
  unfold isComputedAt at h
  cases hg : g.nodes[e.src]? with
  | none => rw [hg] at h; cases h
  | some pn =>
    obtain ⟨p, nd⟩ := pn
    cases nd with
    | Computed c => exact ⟨p, c, rfl, by simp [Node.ct]⟩
    | BootsrapQueued => rw [hg] at h; cases h
    | ToCompute lut => rw [hg] at h; cases h

/-- Claim C8: `predecessors_list` fails fast exactly when some predecessor
is not `Computed`; when all predecessors are `Computed` it returns, for every
incoming edge in order, the pair of the edge weight and the predecessor's
ciphertext. -/
theorem predecessors_list_spec {CT : Type} (g : FheGraph CT) (i : Nat) :
    (predecessors_list g i = none ↔
      ∃ e ∈ incomingE g.edges i, isComputedAt g e.src = false) ∧
    ((∀ e ∈ incomingE g.edges i, isComputedAt g e.src = true) →
      ∃ l, predecessors_list g i = some l ∧
        l.length = (incomingE g.edges i).length ∧
        ∀ (k : Nat) e, (incomingE g.edges i)[k]? = some e →
          ∃ p c, g.nodes[e.src]? = some (p, Node.Computed c) ∧
            l[k]? = some (e.w, c)) := by
  constructor
  · rw [predecessors_list, mapO_eq_none_iff]
    constructor
    · rintro ⟨e, he, hnone⟩
      exact ⟨e, he, (pl_item_none_iff g e).mp hnone⟩
    · rintro ⟨e, he, hfalse⟩
      exact ⟨e, he, (pl_item_none_iff g e).mpr hfalse⟩
  · intro hall
    cases hres : predecessors_list g i with
    | none =>
      rw [predecessors_list, mapO_eq_none_iff] at hres
      rcases hres with ⟨e, he, hnone⟩
      rw [pl_item_none_iff] at hnone
      rw [hall e he] at hnone
      cases hnone
    | some l =>
      refine ⟨l, rfl, ?_, ?_⟩
      · exact (mapO_eq_some_get _ _ hres).1
      · intro k e hk
        have hmem : e ∈ incomingE g.edges i := List.getElem?_mem hk
        rcases pl_item_some g e (hall e hmem) with ⟨p, c, hget, hitem⟩
        rcases (mapO_eq_some_get _ _ hres).2 k e hk with ⟨b, hfb, hbk⟩
        rw [hitem] at hfb
        cases hfb
        exact ⟨p, c, hget, hbk⟩

/-- Witness for C8 at a concrete graph: node 3 has an uncomputed predecessor
and its query fails; node 2 has its only predecessor computed and the query
returns that edge's pair. -/
theorem predecessors_list_spec_witness :
    predecessors_list wG 3 = none ∧
    (∃ l, predecessors_list wG 2 = some l ∧
      l.length = (incomingE wG.edges 2).length ∧
      ∀ (k : Nat) e, (incomingE wG.edges 2)[k]? = some e →
        ∃ p c, wG.nodes[e.src]? = some (p, Node.Computed c) ∧
          l[k]? = some (e.w, c)) := by
  constructor
  · exact (predecessors_list_spec wG 3).1.mpr ⟨⟨1, 3, 6⟩, by decide, by decide⟩
  · exact (predecessors_list_spec wG 2).2 (by decide)

/-- Amended claim C4: committing a result for a node that is not
`BootsrapQueued` fails fatally and leaves every node state unchanged, but the
not-computed counter has already been decremented by one at the failure
point (the source decrements before checking the state). -/
theorem commit_result_wrong_state {CT : Type} (g : FheGraph CT)
    (r : IndexedCt CT) (h : isQueuedAt g r.index = false) :
    commit_result g r =
      ({ g with not_computed_nodes_count := g.not_computed_nodes_count - 1 },
        none) := by
  unfold commit_result
  unfold isQueuedAt at h
  cases hg : g.nodes[r.index]? with
  | none => simp only [hg]
  | some pn =>
    obtain ⟨p, nd⟩ := pn
    cases nd with
    | Computed c => simp only [hg]
    | BootsrapQueued => rw [hg] at h; cases h
    | ToCompute lut => simp only [hg]

/-- Counterexample to C4 as stated: committing node 0 of `qG` (state
`ToCompute`, not `QueuedForCompute`) fails, but the not-computed counter has
changed from 1 to 0, so the store is not left unchanged. -/
theorem commit_wrong_state_counter_changed :
    (commit_result qG ⟨0, 7⟩).2 = none ∧
    (commit_result qG ⟨0, 7⟩).1.not_computed_nodes_count = 0 ∧
    qG.not_computed_nodes_count = 1 := by decide

/-- Witness for the amended C4 at the concrete graph `qG`. -/
theorem commit_result_wrong_state_witness :
    commit_result qG ⟨0, 7⟩ =
      ({ qG with not_computed_nodes_count := qG.not_computed_nodes_count - 1 },
        none) :=
  commit_result_wrong_state qG ⟨0, 7⟩ (by decide)

/-- Every task pair built by `build_task` carries `Priority(0)`, whatever
the node's stored priority is. -/
theorem build_task_priority_is_zero {CT : Type} (g : FheGraph CT) (i : Nat)
    {g' : FheGraph CT} {p : Int} {t : IndexedCtsAndLut CT}
    (h : build_task g i = (g', some (p, t))) : p = 0 := by
  unfold build_task at h
  cases hpl : predecessors_list g i with
  | none => rw [hpl] at h; cases h
  | some cw =>
    rw [hpl] at h
    cases hg : g.nodes[i]? with
    | none => rw [hg] at h; cases h
    | some pn =>
      obtain ⟨pr, nd⟩ := pn
      cases nd with
      | Computed c => rw [hg] at h; cases h
      | BootsrapQueued => rw [hg] at h; cases h
      | ToCompute lut =>
        rw [hg] at h
        cases h
        rfl

/-- Code-bug evidence for C2: after construction of the chain the stored
priorities are `[2, 1]`, yet the single task returned by `init` (for node 1,
stored priority 1) carries priority 0 — `build_task` hardcodes
`Priority(0)` instead of the stored priority. -/
theorem init_task_priority_mismatch :
    (FheGraph.new cRaw).map (fun g => g.nodes.map Prod.fst) = some [2, 1] ∧
    (FheGraph.new cRaw).map
        (fun g => (FheGraph.init g).2.map (List.map (fun t => (t.1, t.2.index))))
      = some (some [(0, 1)]) := by decide

/-- Amended claim C6: `assert_finishable` succeeds exactly when the graph is
acyclic and every source node (no predecessors) is `Computed`, whatever the
states of the non-source nodes; the validation run by `init`
(`test_graph_init`) additionally requires every non-source node to be
`ToCompute`, so it can fail on acyclic graphs whose sources are all
`Computed`. -/
theorem validation_spec {CT : Type} (g : FheGraph CT) (hwf : g.WF) :
    (assert_finishable g = true ↔
      (Acyclic g.edges ∧
        ∀ i < g.n, predsE g.edges i = [] → isComputedAt g i = true)) ∧
    (test_graph_init g = true ↔
      (Acyclic g.edges ∧
        ∀ i < g.n, (predsE g.edges i = [] → isComputedAt g i = true) ∧
          (predsE g.edges i ≠ [] → isToComputeAt g i = true))) := by
  have hacy : (!isCyclicDirected g.n g.edges) = true ↔ Acyclic g.edges := by
    rw [Bool.not_eq_true']
    constructor
    · intro h i hr
      have := (isCyclicDirected_iff hwf).mpr ⟨i, hr⟩
      rw [h] at this
      cases this
    · intro h
      cases hc : isCyclicDirected g.n g.edges with
      | false => rfl
      | true =>
        rcases (isCyclicDirected_iff hwf).mp hc with ⟨i, hr⟩
        exact absurd hr (h i)
  constructor
  · rw [assert_finishable, Bool.and_eq_true, hacy, List.all_eq_true]
    constructor
    · rintro ⟨ha, hall⟩
      refine ⟨ha, fun i hi hempty => ?_⟩
      have := hall i (List.mem_range.mpr hi)
      rwa [if_pos (List.isEmpty_iff.mpr hempty)] at this
    · rintro ⟨ha, hall⟩
      refine ⟨ha, fun i hi => ?_⟩
      by_cases hempty : (predsE g.edges i).isEmpty
      · rw [if_pos hempty]
        exact hall i (List.mem_range.mp hi) (List.isEmpty_iff.mp hempty)
      · rw [if_neg hempty]
  · rw [test_graph_init, Bool.and_eq_true, hacy, List.all_eq_true]
    constructor
    · rintro ⟨ha, hall⟩
      refine ⟨ha, fun i hi => ⟨fun hempty => ?_, fun hne => ?_⟩⟩
      · have := hall i (List.mem_range.mpr hi)
        rwa [if_pos (List.isEmpty_iff.mpr hempty)] at this
      · have := hall i (List.mem_range.mpr hi)
        rwa [if_neg (fun hc => hne (List.isEmpty_iff.mp hc))] at this
    · rintro ⟨ha, hall⟩
      refine ⟨ha, fun i hi => ?_⟩
      by_cases hempty : (predsE g.edges i).isEmpty
      · rw [if_pos hempty]
        exact (hall i (List.mem_range.mp hi)).1 (List.isEmpty_iff.mp hempty)
      · rw [if_neg hempty]
        exact (hall i (List.mem_range.mp hi)).2
          (fun hc => hempty (List.isEmpty_iff.mpr hc))

/-- Counterexample to C6 as stated: `bG` is acyclic and all its source
nodes are `Computed`, yet the well-formedness validation run by `init`
(`test_graph_init`) fails on it; only `assert_finishable` succeeds. -/
theorem validation_counterexample :
    isCyclicDirected bG.n bG.edges = false ∧
    (∀ i < bG.n, predsE bG.edges i = [] → isComputedAt bG i = true) ∧
    test_graph_init bG = false ∧
    assert_finishable bG = true := by decide

/-- Witness for the amended C6 at the concrete graph `bG`. -/
theorem validation_spec_witness :
    (assert_finishable bG = true ↔
      (Acyclic bG.edges ∧
        ∀ i < bG.n, predsE bG.edges i = [] → isComputedAt bG i = true)) ∧
    (test_graph_init bG = true ↔
      (Acyclic bG.edges ∧
        ∀ i < bG.n, (predsE bG.edges i = [] → isComputedAt bG i = true) ∧
          (predsE bG.edges i ≠ [] → isToComputeAt bG i = true))) :=
  validation_spec bG (by unfold FheGraph.WF; decide)

/-- Witness for C9: swapping two concrete weighted integer ciphertexts. -/
theorem multisum_pbs_perm_witness :
    (multisum scalar_mul_int add_scalar_mul_int
        (⟨0, [(1, 2), (3, 4)], Lut.ExtractCarry⟩ : IndexedCtsAndLut Int)).map
        (pbs (fun c _ => c + 1)) =
      (multisum scalar_mul_int add_scalar_mul_int
        (⟨0, [(3, 4), (1, 2)], Lut.ExtractCarry⟩ : IndexedCtsAndLut Int)).map
        (pbs (fun c _ => c + 1)) :=
  multisum_pbs_perm (fun c _ => c + 1) 0 Lut.ExtractCarry
    [(1, 2), (3, 4)] [(3, 4), (1, 2)] (List.Perm.swap (3, 4) (1, 2) [])
    (by decide)

theorem isComputedAt_eq {CT : Type} (g : FheGraph CT) (i : Nat) :
    isComputedAt g i = true ↔ ∃ p c, g.nodes[i]? = some (p, Node.Computed c) := by
  unfold isComputedAt
  cases h : g.nodes[i]? with
  | none => simp
  | some pn =>
    obtain ⟨p, nd⟩ := pn
    cases nd <;> simp

theorem isToComputeAt_eq {CT : Type} (g : FheGraph CT) (i : Nat) :
    isToComputeAt g i = true ↔
      ∃ p lut, g.nodes[i]? = some (p, Node.ToCompute lut) := by
  unfold isToComputeAt
  cases h : g.nodes[i]? with
  | none => simp
  | some pn =>
    obtain ⟨p, nd⟩ := pn
    cases nd <;> simp

theorem isQueuedAt_eq {CT : Type} (g : FheGraph CT) (i : Nat) :
    isQueuedAt g i = true ↔ ∃ p, g.nodes[i]? = some (p, Node.BootsrapQueued) := by
  unfold isQueuedAt
  cases h : g.nodes[i]? with
  | none => simp
  | some pn =>
    obtain ⟨p, nd⟩ := pn
    cases nd <;> simp

theorem setNode_edges {CT : Type} (g : FheGraph CT) (i : Nat)
    (pn : Int × Node CT) : (setNode g i pn).edges = g.edges := rfl

theorem setNode_count {CT : Type} (g : FheGraph CT) (i : Nat)
    (pn : Int × Node CT) :
    (setNode g i pn).not_computed_nodes_count = g.not_computed_nodes_count := rfl

theorem setNode_length {CT : Type} (g : FheGraph CT) (i : Nat)
    (pn : Int × Node CT) : (setNode g i pn).nodes.length = g.nodes.length := by
  simp [setNode]

theorem setNode_getElem_self {CT : Type} (g : FheGraph CT) (i : Nat)
    (pn : Int × Node CT) (h : i < g.nodes.length) :
    (setNode g i pn).nodes[i]? = some pn := by
  simp [setNode, List.getElem?_set_self h]

theorem setNode_getElem_ne {CT : Type} (g : FheGraph CT) (i j : Nat)
    (pn : Int × Node CT) (h : i ≠ j) :
    (setNode g i pn).nodes[j]? = g.nodes[j]? := by
  simp [setNode, List.getElem?_set_ne h]

theorem allPredsComputed_iff {CT : Type} (g : FheGraph CT) (i : Nat) :
    allPredsComputed g i = true ↔
      ∀ e ∈ incomingE g.edges i, isComputedAt g e.src = true := by
  unfold allPredsComputed predsE incomingE
  rw [List.all_eq_true]
  constructor
  · intro h e he
    exact h e.src (List.mem_map.mpr ⟨e, he, rfl⟩)
  · rintro h p hp
    rcases List.mem_map.mp hp with ⟨e, he, rfl⟩
    exact h e he

theorem build_task_success {CT : Type} (g : FheGraph CT) (i : Nat) (p : Int)
    (lut : Lut) (hn : g.nodes[i]? = some (p, Node.ToCompute lut))
    (hpc : ∀ e ∈ incomingE g.edges i, isComputedAt g e.src = true) :
    ∃ cw, build_task g i =
      (setNode g i (p, Node.BootsrapQueued), some (0, ⟨i, cw, lut⟩)) := by
  rcases (predecessors_list_spec g i).2 hpc with ⟨cw, hcw, _⟩
  refine ⟨cw, ?_⟩
  unfold build_task
  rw [hcw, hn]

/-- Specification of the `build_task` loop shared by `init` and
`commit_result`: on a duplicate-free list of `ToCompute` nodes whose
predecessors are all `Computed`, it succeeds, produces exactly one task per
listed node in order, moves exactly those nodes to `BootsrapQueued`, and
touches nothing else. -/
theorem build_tasks_spec {CT : Type} (l : List Nat) : ∀ (g : FheGraph CT),
    l.Nodup →
    (∀ i ∈ l, isToComputeAt g i = true) →
    (∀ i ∈ l, ∀ e ∈ incomingE g.edges i, isComputedAt g e.src = true) →
    ∃ g' ts, build_tasks g l = (g', some ts) ∧
      ts.map (fun t => t.2.index) = l ∧
      (∀ t ∈ ts, t.1 = 0) ∧
      g'.edges = g.edges ∧
      g'.not_computed_nodes_count = g.not_computed_nodes_count ∧
      g'.nodes.length = g.nodes.length ∧
      (∀ j, j ∉ l → g'.nodes[j]? = g.nodes[j]?) ∧
      (∀ i ∈ l, ∃ p lut, g.nodes[i]? = some (p, Node.ToCompute lut) ∧
        g'.nodes[i]? = some (p, Node.BootsrapQueued)) := by
  induction l with
  | nil =>
    intro g _ _ _
    exact ⟨g, [], rfl, rfl, by simp, rfl, rfl, rfl, fun j _ => rfl, by simp⟩
  | cons i rest ih =>
    intro g hnodup htc hpc
    have hirest : i ∉ rest := (List.nodup_cons.mp hnodup).1
    rcases (isToComputeAt_eq g i).mp (htc i (List.mem_cons_self i rest))
      with ⟨p, lut, hn⟩
    have hilen : i < g.nodes.length := (List.getElem?_eq_some.mp hn).1
    rcases build_task_success g i p lut hn
      (hpc i (List.mem_cons_self i rest)) with ⟨cw, hbt⟩
    set gb := setNode g i (p, Node.BootsrapQueued) with hgb
    have hb_get_ne : ∀ j, j ≠ i → gb.nodes[j]? = g.nodes[j]? :=
      fun j hj => setNode_getElem_ne g i j _ (fun he => hj he.symm)
    have htc' : ∀ j ∈ rest, isToComputeAt gb j = true := by
      intro j hj
      have hji : j ≠ i := fun he => hirest (he ▸ hj)
      rcases (isToComputeAt_eq g j).mp (htc j (List.mem_cons_of_mem i hj))
        with ⟨pj, lj, hnj⟩
      exact (isToComputeAt_eq gb j).mpr ⟨pj, lj, (hb_get_ne j hji) ▸ hnj⟩
    have hpc' : ∀ j ∈ rest, ∀ e ∈ incomingE gb.edges j,
        isComputedAt gb e.src = true := by
      intro j hj e he
      have hge : gb.edges = g.edges := setNode_edges g i _
      have hcomp : isComputedAt g e.src = true :=
        hpc j (List.mem_cons_of_mem i hj) e (hge ▸ he)
      have hsrci : e.src ≠ i := by
        intro he'
        rcases (isComputedAt_eq g e.src).mp hcomp with ⟨pc, cc, hcc⟩
        rw [he', hn] at hcc
        cases hcc
      rcases (isComputedAt_eq g e.src).mp hcomp with ⟨pc, cc, hcc⟩
      exact (isComputedAt_eq gb e.src).mpr ⟨pc, cc, (hb_get_ne e.src hsrci) ▸ hcc⟩
    rcases ih gb (List.nodup_cons.mp hnodup).2 htc' hpc' with
      ⟨g', ts', hbts, hmap, hzero, hedges, hcnt, hlen, hunch, hitems⟩
    refine ⟨g', (0, ⟨i, cw, lut⟩) :: ts', ?_, ?_, ?_, ?_, ?_, ?_, ?_, ?_⟩
    · show build_tasks g (i :: rest) = _
      unfold build_tasks
      rw [hbt]
      dsimp only
      rw [hbts]
    · simp [hmap]
    · intro t ht
      rcases List.mem_cons.mp ht with rfl | ht'
      · rfl
      · exact hzero t ht'
    · rw [hedges]; exact setNode_edges g i _
    · rw [hcnt]; exact setNode_count g i _
    · rw [hlen]; exact setNode_length g i _
    · intro j hj
      have hji : j ≠ i := fun he => hj (he ▸ List.mem_cons_self i rest)
      have hjrest : j ∉ rest := fun hr => hj (List.mem_cons_of_mem i hr)
      rw [hunch j hjrest]
      exact hb_get_ne j hji
    · intro j hj
      rcases List.mem_cons.mp hj with rfl | hjr
      · refine ⟨p, lut, hn, ?_⟩
        rw [hunch j hirest]
        exact setNode_getElem_self g j _ hilen
      · rcases hitems j hjr with ⟨pj, lj, hgbj, hg'j⟩
        have hji : j ≠ i := fun he => hirest (he ▸ hjr)
        exact ⟨pj, lj, (hb_get_ne j hji) ▸ hgbj, hg'j⟩

/-- Claim C5: on any graph passing the well-formedness validation, `init`
returns exactly one task for each node that is `ToCompute` with all
predecessors `Computed`, in index order, and no task for any other node; and
on the single isolated `Computed` node, `init` returns the empty task list
with `is_finished` already true. -/
theorem init_spec :
    (∀ (CT : Type) (g : FheGraph CT), test_graph_init g = true →
      ∃ g' ts, FheGraph.init g = (g', some ts) ∧
        ts.map (fun t => t.2.index) = (List.range g.n).filter
          (fun i => isToComputeAt g i && allPredsComputed g i)) ∧
    (FheGraph.new sRaw = some sG ∧ (FheGraph.init sG).2 = some [] ∧
      is_finished sG = true) := by
  constructor
  · intro CT g htest
    have hnodup : ((List.range g.n).filter
        (fun i => isToComputeAt g i && allPredsComputed g i)).Nodup :=
      (List.nodup_range g.n).filter _
    have htc : ∀ i ∈ (List.range g.n).filter
        (fun i => isToComputeAt g i && allPredsComputed g i),
        isToComputeAt g i = true := by
      intro i hi
      have hmem := List.of_mem_filter hi
      simp only [Bool.and_eq_true] at hmem
      exact hmem.1
    have hpc : ∀ i ∈ (List.range g.n).filter
        (fun i => isToComputeAt g i && allPredsComputed g i),
        ∀ e ∈ incomingE g.edges i, isComputedAt g e.src = true := by
      intro i hi
      have hmem := List.of_mem_filter hi
      simp only [Bool.and_eq_true] at hmem
      exact (allPredsComputed_iff g i).mp hmem.2
    rcases build_tasks_spec _ g hnodup htc hpc with
      ⟨g', ts, hbts, hmap, _⟩
    refine ⟨g', ts, ?_, hmap⟩
    unfold FheGraph.init
    rw [if_pos htest, hbts]
  · exact ⟨by decide, by decide, by decide⟩

/-- Witness for the general part of C5 at the concrete diamond graph. -/
theorem init_spec_witness :
    ∃ g' ts, FheGraph.init dG = (g', some ts) ∧
      ts.map (fun t => t.2.index) = (List.range dG.n).filter
        (fun i => isToComputeAt dG i && allPredsComputed dG i) :=
  init_spec.1 Int dG (by decide)

theorem commit_result_ready {CT : Type} (g : FheGraph CT) (r : IndexedCt CT)
    (p : Int) (hq : g.nodes[r.index]? = some (p, Node.BootsrapQueued))
    (hs : ∀ s ∈ succsE g.edges r.index, isToComputeAt g s = true)
    (hnd : (succsE g.edges r.index).Nodup)
    (hcnt : 0 < g.not_computed_nodes_count) :
    ∃ g' ts, commit_result g r = (g', some ts) ∧
      ts.map (fun t => t.2.index) = readySuccs g r.index ∧
      g'.not_computed_nodes_count + 1 = g.not_computed_nodes_count ∧
      g'.nodes[r.index]? = some (p, Node.Computed r.ct) ∧
      (∀ s ∈ readySuccs g r.index, ∃ ps lut,
        g.nodes[s]? = some (ps, Node.ToCompute lut) ∧
        g'.nodes[s]? = some (ps, Node.BootsrapQueued)) ∧
      (∀ j, j ≠ r.index → j ∉ readySuccs g r.index →
        g'.nodes[j]? = g.nodes[j]?) := by
  have hlen : r.index < g.nodes.length := (List.getElem?_eq_some.mp hq).1
  let g1 : FheGraph CT :=
    { g with not_computed_nodes_count := g.not_computed_nodes_count - 1 }
  let g2 : FheGraph CT := setNode g1 r.index (p, Node.Computed r.ct)
  have hg2_self : g2.nodes[r.index]? = some (p, Node.Computed r.ct) :=
    setNode_getElem_self g1 r.index _ hlen
  have hg2_ne : ∀ j, j ≠ r.index → g2.nodes[j]? = g.nodes[j]? := by
    intro j hj
    exact setNode_getElem_ne g1 r.index j _ (fun he => hj he.symm)
  have hnotself : r.index ∉ succsE g.edges r.index := by
    intro hmem
    rcases (isToComputeAt_eq g r.index).mp (hs r.index hmem) with ⟨p', l', h'⟩
    rw [hq] at h'
    cases h'
  have hs2 : ∀ s ∈ succsE g.edges r.index, isToComputeAt g2 s = true := by
    intro s hsm
    have hne : s ≠ r.index := fun he => hnotself (he ▸ hsm)
    rcases (isToComputeAt_eq g s).mp (hs s hsm) with ⟨ps, ls, hgs⟩
    exact (isToComputeAt_eq g2 s).mpr ⟨ps, ls, (hg2_ne s hne) ▸ hgs⟩
  have hcomp2 : ∀ q, isComputedAt g2 q = (q == r.index || isComputedAt g q) := by
    intro q
    by_cases hqe : q = r.index
    · rw [hqe]
      have h1 : isComputedAt g2 r.index = true :=
        (isComputedAt_eq g2 r.index).mpr ⟨p, r.ct, hg2_self⟩
      rw [h1]
      simp
    · have hbq : (q == r.index) = false := by
        simp [hqe]
      rw [hbq, Bool.false_or]
      unfold isComputedAt
      rw [hg2_ne q hqe]
  have hall : (succsE g2.edges r.index).all (fun s => isToComputeAt g2 s)
      = true := by
    rw [List.all_eq_true]
    intro s hsm
    exact hs2 s hsm
  have hfilter : (succsE g2.edges r.index).filter (fun s => allPredsComputed g2 s)
      = readySuccs g r.index := by
    show (succsE g.edges r.index).filter _ = _
    unfold readySuccs
    apply List.filter_congr
    intro s _
    show (predsE g.edges s).all (fun q => isComputedAt g2 q) = _
    simp only [hcomp2]
  have hnd' : (readySuccs g r.index).Nodup := hnd.filter _
  have htc' : ∀ s ∈ readySuccs g r.index, isToComputeAt g2 s = true :=
    fun s hsm => hs2 s (List.mem_of_mem_filter hsm)
  have hpc' : ∀ s ∈ readySuccs g r.index, ∀ e ∈ incomingE g2.edges s,
      isComputedAt g2 e.src = true := by
    intro s hsm
    have hprop := List.of_mem_filter hsm
    have hapc : allPredsComputed g2 s = true := by
      unfold allPredsComputed
      show (predsE g.edges s).all (fun q => isComputedAt g2 q) = true
      simp only [hcomp2]
      exact hprop
    exact (allPredsComputed_iff g2 s).mp hapc
  rcases build_tasks_spec (readySuccs g r.index) g2 hnd' htc' hpc' with
    ⟨g', ts, hbts, hmap, hzero, hedges', hcnt', hlen', hunch', hitems'⟩
  have hnotready : r.index ∉ readySuccs g r.index :=
    fun hmem => hnotself (List.mem_of_mem_filter hmem)
  have hcommit : commit_result g r =
      build_tasks g2 ((succsE g2.edges r.index).filter
        (fun s => allPredsComputed g2 s)) := by
    unfold commit_result
    dsimp only
    rw [hq]
    dsimp only
    rw [if_pos hall]
  refine ⟨g', ts, ?_, hmap, ?_, ?_, ?_, ?_⟩
  · rw [hcommit, hfilter, hbts]
  · have h2 : g2.not_computed_nodes_count = g.not_computed_nodes_count - 1 := rfl
    rw [hcnt', h2]
    omega
  · rw [hunch' r.index hnotready]
    exact hg2_self
  · intro s hsm
    have hne : s ≠ r.index := fun he => hnotready (he ▸ hsm)
    rcases hitems' s hsm with ⟨ps, lut, hg2s, hg's⟩
    exact ⟨ps, lut, (hg2_ne s hne) ▸ hg2s, hg's⟩
  · intro j hj hjr
    rw [hunch' j hjr]
    exact hg2_ne j hj

/-- Amended claim C3: committing a result for a `BootsrapQueued` node whose
successors are all `ToCompute`, are joined to it by at most one edge each and
leave the counter positive, transitions it to `Computed`, decrements the
not-computed counter by exactly one, and returns exactly one newly built
task for each successor all of whose predecessors are now `Computed` and no
task for any other node; the 4-node diamond scenario behaves as described
(tasks for nodes 1 and 2 from `init`, a task for node 3 only after both
commits in either order, `is_finished` after committing node 3). -/
theorem commit_result_spec :
    (∀ (CT : Type) (g : FheGraph CT) (r : IndexedCt CT) (p : Int),
      g.nodes[r.index]? = some (p, Node.BootsrapQueued) →
      (∀ s ∈ succsE g.edges r.index, isToComputeAt g s = true) →
      (succsE g.edges r.index).Nodup →
      0 < g.not_computed_nodes_count →
      ∃ g' ts, commit_result g r = (g', some ts) ∧
        ts.map (fun t => t.2.index) = readySuccs g r.index ∧
        g'.not_computed_nodes_count + 1 = g.not_computed_nodes_count ∧
        g'.nodes[r.index]? = some (p, Node.Computed r.ct) ∧
        (∀ s ∈ readySuccs g r.index, ∃ ps lut,
          g.nodes[s]? = some (ps, Node.ToCompute lut) ∧
          g'.nodes[s]? = some (ps, Node.BootsrapQueued)) ∧
        (∀ j, j ≠ r.index → j ∉ readySuccs g r.index →
          g'.nodes[j]? = g.nodes[j]?)) ∧
    (FheGraph.new dRaw = some dG ∧
      ((FheGraph.init dG).2).map (List.map (fun t => t.2.index)) = some [1, 2] ∧
      ((commit_result dG1 ⟨1, 20⟩).2).map (List.map (fun t => t.2.index))
        = some [] ∧
      ((commit_result dG2b ⟨2, 30⟩).2).map (List.map (fun t => t.2.index))
        = some [3] ∧
      ((commit_result dG1 ⟨2, 30⟩).2).map (List.map (fun t => t.2.index))
        = some [] ∧
      ((commit_result dG2c ⟨1, 20⟩).2).map (List.map (fun t => t.2.index))
        = some [3] ∧
      ((commit_result dG3b ⟨3, 40⟩).2).map (List.map (fun t => t.2.index))
        = some [] ∧
      is_finished dG4 = true) := by
  constructor
  · intro CT g r p hq hs hnd hcnt
    exact commit_result_ready g r p hq hs hnd hcnt
  · exact ⟨by decide, by decide, by decide, by decide, by decide, by decide,
      by decide, by decide⟩

/-- Witness for the general part of C3: committing node 2 of the diamond
after node 1 has been committed releases exactly the task for node 3. -/
theorem commit_result_spec_witness :
    ∃ g' ts, commit_result dG2b ⟨2, 30⟩ = (g', some ts) ∧
      ts.map (fun t => t.2.index) = readySuccs dG2b 2 ∧
      g'.not_computed_nodes_count + 1 = dG2b.not_computed_nodes_count ∧
      g'.nodes[(2 : Nat)]? = some (2, Node.Computed 30) ∧
      (∀ s ∈ readySuccs dG2b 2, ∃ ps lut,
        dG2b.nodes[s]? = some (ps, Node.ToCompute lut) ∧
        g'.nodes[s]? = some (ps, Node.BootsrapQueued)) ∧
      (∀ j, j ≠ 2 → j ∉ readySuccs dG2b 2 →
        g'.nodes[j]? = dG2b.nodes[j]?) :=
  commit_result_spec.1 Int dG2b ⟨2, 30⟩ 2 (by decide) (by decide) (by decide)
    (by decide)

/-- Counterexample to C3 as stated: in the multigraph `pG`, node 1 is a
successor of the queued node 0 and all its predecessors are `Computed` after
the commit, yet committing node 0 builds the task for node 1 twice (once per
parallel edge), hits `unreachable!`, and returns no task list at all. -/
theorem commit_parallel_edge_failure :
    pG.nodes[(0 : Nat)]? = some (0, Node.BootsrapQueued) ∧
    isToComputeAt pG 1 = true ∧
    (commit_result pG ⟨0, 7⟩).2 = none := by decide

theorem filter_set_length {α : Type} (P : α → Bool) :
    ∀ (l : List α) (i : Nat) (a b : α), l[i]? = some a →
    ((l.set i b).filter P).length + (if P a then 1 else 0)
      = (l.filter P).length + (if P b then 1 else 0) := by
  intro l
  induction l with
  | nil => intro i a b h; cases h
  | cons x l ih =>
    intro i a b h
    cases i with
    | zero =>
      rw [List.getElem?_cons_zero] at h
      injection h with h1
      subst h1
      show ((b :: l).filter P).length + _ = _
      cases hb : P b <;> cases hx : P x <;>
        simp [List.filter_cons, hb, hx]
    | succ i =>
      rw [List.getElem?_cons_succ] at h
      show ((x :: l.set i b).filter P).length + _ = _
      have := ih i a b h
      cases hx : P x <;> simp [List.filter_cons, hx] <;> omega

theorem zip_filter_length {CT : Type} :
    ∀ (ds : List Int) (ns : List (Node CT)), ds.length = ns.length →
    ((ds.zip ns).filter (fun pn => !pn.2.isComputedB)).length
      = (ns.filter (fun nd => !nd.isComputedB)).length := by
  intro ds
  induction ds with
  | nil =>
    intro ns h
    cases ns with
    | nil => rfl
    | cons n ns' => cases h
  | cons d ds ih =>
    intro ns h
    cases ns with
    | nil => cases h
    | cons n ns' =>
      have hlen : ds.length = ns'.length := by
        simpa using h
      show (((d, n) :: ds.zip ns').filter _).length = _
      cases hn : (!n.isComputedB) <;>
        simp [List.filter_cons, hn, ih ns' hlen]

theorem count_not_computed_setNode {CT : Type} (g : FheGraph CT) (i : Nat)
    (a b : Int × Node CT) (h : g.nodes[i]? = some a) :
    count_not_computed (setNode g i b) + (if !a.2.isComputedB then 1 else 0)
      = count_not_computed g + (if !b.2.isComputedB then 1 else 0) :=
  filter_set_length _ g.nodes i a b h

theorem build_task_invC {CT : Type} (g g' : FheGraph CT) (i : Nat)
    (t : Int × IndexedCtsAndLut CT) (h : build_task g i = (g', some t)) :
    count_not_computed g' = count_not_computed g ∧
    g'.not_computed_nodes_count = g.not_computed_nodes_count := by
  unfold build_task at h
  cases hpl : predecessors_list g i with
  | none => rw [hpl] at h; simp at h
  | some cw =>
    rw [hpl] at h
    cases hg : g.nodes[i]? with
    | none => rw [hg] at h; simp at h
    | some pn =>
      obtain ⟨p, nd⟩ := pn
      cases nd with
      | Computed c => rw [hg] at h; simp at h
      | BootsrapQueued => rw [hg] at h; simp at h
      | ToCompute lut =>
        rw [hg] at h
        dsimp only at h
        injection h with h1 h2
        subst h1
        constructor
        · have hc := count_not_computed_setNode g i (p, Node.ToCompute lut)
            (p, Node.BootsrapQueued) hg
          simp only [Node.isComputedB, Bool.not_false, if_pos] at hc
          omega
        · exact setNode_count g i _

theorem build_tasks_invC {CT : Type} (l : List Nat) :
    ∀ (g g' : FheGraph CT) ts, build_tasks g l = (g', some ts) →
    count_not_computed g' = count_not_computed g ∧
    g'.not_computed_nodes_count = g.not_computed_nodes_count := by
  induction l with
  | nil =>
    intro g g' ts h
    unfold build_tasks at h
    injection h with h1 h2
    subst h1
    exact ⟨rfl, rfl⟩
  | cons i rest ih =>
    intro g g' ts h
    unfold build_tasks at h
    cases hbt : build_task g i with
    | mk gb ot =>
      rw [hbt] at h
      cases ot with
      | none => simp at h
      | some t =>
        dsimp only at h
        cases hbts : build_tasks gb rest with
        | mk g2 ots =>
          rw [hbts] at h
          cases ots with
          | none => simp at h
          | some ts2 =>
            dsimp only at h
            injection h with h1 h2
            have h3 := build_task_invC g gb i t hbt
            have h4 := ih gb g2 ts2 hbts
            rw [← h1]
            exact ⟨h4.1.trans h3.1, h4.2.trans h3.2⟩

/-- Claim C10: the not-computed counter equals the number of nodes whose
state is not `Computed` right after construction, the invariant is preserved
by `init` and by every successful `commit_result` (whose internal
`build_task` transitions touch neither side), and under the invariant
`is_finished` holds exactly when every node is `Computed`. -/
theorem counter_invariant :
    (∀ (CT : Type) (g0 : RawGraph CT) (g : FheGraph CT),
      FheGraph.new g0 = some g →
      g.not_computed_nodes_count = count_not_computed g) ∧
    (∀ (CT : Type) (g g' : FheGraph CT) (ts : List (Int × IndexedCtsAndLut CT)),
      g.not_computed_nodes_count = count_not_computed g →
      FheGraph.init g = (g', some ts) →
      g'.not_computed_nodes_count = count_not_computed g') ∧
    (∀ (CT : Type) (g g' : FheGraph CT) (r : IndexedCt CT)
      (ts : List (Int × IndexedCtsAndLut CT)),
      g.not_computed_nodes_count = count_not_computed g →
      commit_result g r = (g', some ts) →
      g'.not_computed_nodes_count = count_not_computed g') ∧
    (∀ (CT : Type) (g : FheGraph CT),
      g.not_computed_nodes_count = count_not_computed g →
      (is_finished g = true ↔ ∀ pn ∈ g.nodes, pn.2.isComputedB = true)) := by
  refine ⟨?_, ?_, ?_, ?_⟩
  · intro CT g0 g h
    unfold FheGraph.new at h
    dsimp only at h
    cases hds : mapO (fun i => List.lookup i (depthsD g0))
        (List.range g0.n) with
    | none => rw [hds] at h; cases h
    | some ds =>
      rw [hds] at h
      injection h with h1
      subst h1
      have hlen : ds.length = g0.nodes.length := by
        have := (mapO_eq_some_get _ _ hds).1
        simpa [RawGraph.n] using this
      show (g0.nodes.filter (fun nd => !nd.isComputedB)).length
          = count_not_computed _
      unfold count_not_computed
      exact (zip_filter_length ds g0.nodes hlen).symm
  · intro CT g g' ts hinv h
    unfold FheGraph.init at h
    by_cases ht : test_graph_init g = true
    · rw [if_pos ht] at h
      have := build_tasks_invC _ g g' ts h
      rw [this.1, this.2, hinv]
    · rw [if_neg ht] at h
      simp at h
  · intro CT g g' r ts hinv h
    unfold commit_result at h
    dsimp only at h
    split at h
    case _ p heq =>
      split at h
      case isTrue hall =>
        have hbt := build_tasks_invC _ _ g' ts h
        have hcset : count_not_computed
            (setNode { g with not_computed_nodes_count :=
              g.not_computed_nodes_count - 1 } r.index (p, Node.Computed r.ct))
            + 1 = count_not_computed g := by
          have hc := count_not_computed_setNode
            { g with not_computed_nodes_count :=
              g.not_computed_nodes_count - 1 }
            r.index (p, Node.BootsrapQueued) (p, Node.Computed r.ct) heq
          simpa [Node.isComputedB, count_not_computed] using hc
        have hcnt2 : (setNode { g with not_computed_nodes_count :=
            g.not_computed_nodes_count - 1 } r.index
            (p, Node.Computed r.ct)).not_computed_nodes_count
            = g.not_computed_nodes_count - 1 := rfl
        rw [hbt.1, hbt.2, hcnt2]
        omega
      case isFalse hall => simp at h
    case _ heq₁ heq₂ => simp at h
  · intro CT g hinv
    unfold is_finished
    rw [beq_iff_eq, hinv]
    unfold count_not_computed
    rw [List.length_eq_zero, List.filter_eq_nil_iff]
    constructor
    · intro h pn hpn
      have := h pn hpn
      simpa using this
    · intro h pn hpn
      simp [h pn hpn]

/-- Witness for C10 at the concrete diamond: construction establishes the
invariant, a successful commit preserves it, and under the invariant
`is_finished` decides full computation. -/
theorem counter_invariant_witness :
    dG.not_computed_nodes_count = count_not_computed dG ∧
    dG2b.not_computed_nodes_count = count_not_computed dG2b ∧
    (is_finished dG = true ↔ ∀ pn ∈ dG.nodes, pn.2.isComputedB = true) :=
  ⟨counter_invariant.1 Int dRaw dG (by decide),
   counter_invariant.2.2.1 Int dG1 dG2b ⟨1, 20⟩ [] (by decide) (by decide),
   counter_invariant.2.2.2 Int dG (counter_invariant.1 Int dRaw dG (by decide))⟩

theorem lookup_cons_self (i : Nat) (d : Int) (m : List (Nat × Int)) :
    List.lookup i ((i, d) :: m) = some d := by
  simp [List.lookup]

theorem lookup_cons_of_ne {k i : Nat} (d : Int) (m : List (Nat × Int))
    (h : k ≠ i) : List.lookup k ((i, d) :: m) = List.lookup k m := by
  simp [List.lookup, beq_eq_false_iff_ne.mpr h]

theorem lookup_none_iff (m : List (Nat × Int)) (k : Nat) :
    List.lookup k m = none ↔ k ∉ m.map Prod.fst := by
  induction m with
  | nil => simp
  | cons a m ih =>
    obtain ⟨j, d⟩ := a
    by_cases hk : k = j
    · subst hk
      rw [lookup_cons_self]
      simp
    · rw [lookup_cons_of_ne d m hk]
      simp [hk, ih]

theorem SubMap_cons (m : List (Nat × Int)) (i : Nat) (d : Int)
    (hlook : List.lookup i m = none) : SubMap m ((i, d) :: m) := by
  intro k v h
  have hk : k ≠ i := by
    intro he
    rw [he, hlook] at h
    cases h
  rw [lookup_cons_of_ne d m hk, h]

theorem InvD_insert {CT : Type} (g : RawGraph CT) (m : List (Nat × Int))
    (i : Nat) (hinv : InvD g m) (hlook : List.lookup i m = none)
    (hg : ∀ s ∈ succsE g.edges i, (List.lookup s m).isSome = true) :
    InvD g ((i, (((succsE g.edges i).map
      (fun s => (List.lookup s m).getD 0)).max?).getD 0 + 1) :: m) := by
  have hne_of_some : ∀ s : Nat, (List.lookup s m).isSome = true → s ≠ i := by
    intro s hs he
    rw [he, hlook] at hs
    cases hs
  have hstable : ∀ (d' : Int) (p : Nat),
      (∀ s ∈ succsE g.edges p, (List.lookup s m).isSome = true) →
      (succsE g.edges p).map (fun s => (List.lookup s ((i, d') :: m)).getD 0)
        = (succsE g.edges p).map (fun s => (List.lookup s m).getD 0) := by
    intro d' p hs
    apply List.map_congr_left
    intro s hsm
    rw [lookup_cons_of_ne d' m (hne_of_some s (hs s hsm))]
  intro p v hpv
  by_cases hpi : p = i
  · subst hpi
    rw [lookup_cons_self] at hpv
    injection hpv with hv
    constructor
    · intro s hsm
      rw [lookup_cons_of_ne _ m (hne_of_some s (hg s hsm))]
      exact hg s hsm
    · rw [hstable _ p hg]
      exact hv.symm
  · rw [lookup_cons_of_ne _ m hpi] at hpv
    rcases hinv p v hpv with ⟨hs, hv⟩
    constructor
    · intro s hsm
      rw [lookup_cons_of_ne _ m (hne_of_some s (hs s hsm))]
      exact hs s hsm
    · rw [hstable _ p hs]
      exact hv

theorem BadD_cons {CT : Type} (g : RawGraph CT) (m : List (Nat × Int))
    (i : Nat) (d : Int) (q : Nat)
    (hbad : BadD g ((i, d) :: m) q) (hnp : q ∉ predsE g.edges i) :
    BadD g m q ∧ q ≠ i := by
  obtain ⟨hs, hq⟩ := hbad
  have hqi : q ≠ i := by
    intro he
    rw [he, lookup_cons_self] at hq
    cases hq
  refine ⟨⟨?_, ?_⟩, hqi⟩
  · intro s hsm
    have hsi : s ≠ i := by
      intro he
      apply hnp
      rcases mem_succsE.mp hsm with ⟨e, hee, hsrc, htgt⟩
      exact mem_predsE.mpr ⟨e, hee, he ▸ htgt, hsrc⟩
    have hss := hs s hsm
    rwa [lookup_cons_of_ne d m hsi] at hss
  · rwa [lookup_cons_of_ne d m hqi] at hq

theorem ipr_succ {CT : Type} (g : RawGraph CT) (fuel : Nat)
    (m : List (Nat × Int)) (i : Nat) :
    insert_predecessors_recursively g (fuel + 1) m i =
      if (List.lookup i m).isSome then m
      else if (succsE g.edges i).all (fun s => (List.lookup s m).isSome) then
        (predsE g.edges i).foldl
          (fun acc p => insert_predecessors_recursively g fuel acc p)
          ((i, (((succsE g.edges i).map
            (fun s => (List.lookup s m).getD 0)).max?).getD 0 + 1) :: m)
      else m := rfl

/-- Master lemma of the backward priority walk: with enough fuel (which the
`n + 1` of `FheGraph.new` always provides), one call extends the depth table
monotonically, keeps its keys bounded and duplicate-free, preserves the
depth invariant, and never leaves a node overdue that was not already
overdue before, while discharging the called node itself. -/
theorem ipr_master {CT : Type} (g : RawGraph CT) (hwf : g.WF) :
    ∀ (fuel : Nat) (m : List (Nat × Int)) (i : Nat),
      i < g.n →
      (∀ k ∈ m.map Prod.fst, k < g.n) →
      (m.map Prod.fst).Nodup →
      InvD g m →
      g.n + 1 ≤ fuel + m.length →
      SubMap m (insert_predecessors_recursively g fuel m i) ∧
      (∀ k ∈ (insert_predecessors_recursively g fuel m i).map Prod.fst,
        k < g.n) ∧
      ((insert_predecessors_recursively g fuel m i).map Prod.fst).Nodup ∧
      InvD g (insert_predecessors_recursively g fuel m i) ∧
      m.length ≤ (insert_predecessors_recursively g fuel m i).length ∧
      (∀ p, BadD g (insert_predecessors_recursively g fuel m i) p →
        BadD g m p ∧ p ≠ i) := by
  intro fuel
  induction fuel with
  | zero =>
    intro m i hi hb hn hinv hfuel
    exfalso
    have hle : (m.map Prod.fst).length ≤ g.n := by
      classical
      have h1 := List.toFinset_card_of_nodup hn
      have h2 : (m.map Prod.fst).toFinset ⊆ Finset.range g.n :=
        fun x hx => Finset.mem_range.mpr (hb x (List.mem_toFinset.mp hx))
      have h3 := Finset.card_le_card h2
      simp only [Finset.card_range] at h3
      omega
    rw [List.length_map] at hle
    omega
  | succ fuel ih =>
    intro m i hi hb hn hinv hfuel
    by_cases hc : (List.lookup i m).isSome = true
    · have hres : insert_predecessors_recursively g (fuel + 1) m i = m := by
        unfold insert_predecessors_recursively
        rw [if_pos hc]
      rw [hres]
      refine ⟨fun k v h => h, hb, hn, hinv, le_refl _, ?_⟩
      intro p hp
      refine ⟨hp, ?_⟩
      intro he
      rw [← he, hp.2] at hc
      cases hc
    · by_cases hg : (succsE g.edges i).all
          (fun s => (List.lookup s m).isSome) = true
      · -- insert and recurse into predecessors
        have hlook : List.lookup i m = none := by
          cases hl : List.lookup i m with
          | none => rfl
          | some v => rw [hl] at hc; exact absurd rfl hc
        have hgs : ∀ s ∈ succsE g.edges i, (List.lookup s m).isSome = true :=
          List.all_eq_true.mp hg
        have hres : insert_predecessors_recursively g (fuel + 1) m i
            = (predsE g.edges i).foldl
              (fun acc p => insert_predecessors_recursively g fuel acc p)
              ((i, (((succsE g.edges i).map
                (fun s => (List.lookup s m).getD 0)).max?).getD 0 + 1) :: m) := by
          rw [ipr_succ, if_neg hc, if_pos hg]
        have hfold : ∀ (ps : List Nat), (∀ p ∈ ps, p < g.n) →
            ∀ (m0 : List (Nat × Int)),
            (∀ k ∈ m0.map Prod.fst, k < g.n) →
            (m0.map Prod.fst).Nodup →
            InvD g m0 →
            g.n + 1 ≤ fuel + m0.length →
            SubMap m0 (ps.foldl (fun acc p =>
              insert_predecessors_recursively g fuel acc p) m0) ∧
            (∀ k ∈ (ps.foldl (fun acc p =>
              insert_predecessors_recursively g fuel acc p) m0).map Prod.fst,
              k < g.n) ∧
            ((ps.foldl (fun acc p =>
              insert_predecessors_recursively g fuel acc p) m0).map
                Prod.fst).Nodup ∧
            InvD g (ps.foldl (fun acc p =>
              insert_predecessors_recursively g fuel acc p) m0) ∧
            m0.length ≤ (ps.foldl (fun acc p =>
              insert_predecessors_recursively g fuel acc p) m0).length ∧
            (∀ q, BadD g (ps.foldl (fun acc p =>
              insert_predecessors_recursively g fuel acc p) m0) q →
              BadD g m0 q ∧ q ∉ ps) := by
          intro ps
          induction ps with
          | nil =>
            intro _ m0 hb0 hn0 hinv0 _
            exact ⟨fun k v h => h, hb0, hn0, hinv0, le_refl _,
              fun q hq => ⟨hq, by simp⟩⟩
          | cons p ps' ihp =>
            intro hps m0 hb0 hn0 hinv0 hf0
            rw [List.foldl_cons]
            have h1 := ih m0 p (hps p (List.mem_cons_self p ps'))
              hb0 hn0 hinv0 hf0
            have h2 := ihp (fun q hq => hps q (List.mem_cons_of_mem p hq))
              (insert_predecessors_recursively g fuel m0 p)
              h1.2.1 h1.2.2.1 h1.2.2.2.1
              (by have h5 := h1.2.2.2.2.1; omega)
            refine ⟨?_, h2.2.1, h2.2.2.1, h2.2.2.2.1, ?_, ?_⟩
            · exact fun k v h => h2.1 k v (h1.1 k v h)
            · have h5 := h1.2.2.2.2.1
              have h6 := h2.2.2.2.2.1
              omega
            · intro q hq
              have h3 := h2.2.2.2.2.2 q hq
              have h4 := h1.2.2.2.2.2 q h3.1
              refine ⟨h4.1, ?_⟩
              intro hmem
              rcases List.mem_cons.mp hmem with rfl | hmem'
              · exact h4.2 rfl
              · exact h3.2 hmem'
        have hkeys1 : ∀ k ∈ (((i, (((succsE g.edges i).map
            (fun s => (List.lookup s m).getD 0)).max?).getD 0 + 1) :: m).map
              Prod.fst), k < g.n := by
          intro k hk
          rcases List.mem_cons.mp hk with rfl | hk'
          · exact hi
          · exact hb k hk'
        have hnodup1 : ((((i, (((succsE g.edges i).map
            (fun s => (List.lookup s m).getD 0)).max?).getD 0 + 1) :: m).map
              Prod.fst)).Nodup := by
          rw [List.map_cons]
          exact List.nodup_cons.mpr ⟨(lookup_none_iff m i).mp hlook, hn⟩
        have hinv1 := InvD_insert g m i hinv hlook hgs
        have hpred_lt : ∀ p ∈ predsE g.edges i, p < g.n := by
          intro p hp
          rcases mem_predsE.mp hp with ⟨e, hee, _, hsrc⟩
          exact hsrc ▸ (hwf e hee).1
        have H := hfold (predsE g.edges i) hpred_lt
          ((i, (((succsE g.edges i).map
            (fun s => (List.lookup s m).getD 0)).max?).getD 0 + 1) :: m)
          hkeys1 hnodup1 hinv1 (by simp only [List.length_cons]; omega)
        rw [hres]
        refine ⟨?_, H.2.1, H.2.2.1, H.2.2.2.1, ?_, ?_⟩
        · intro k v h
          exact H.1 k v (SubMap_cons m i _ hlook k v h)
        · have h5 := H.2.2.2.2.1
          simp only [List.length_cons] at h5
          omega
        · intro q hq
          have h3 := H.2.2.2.2.2 q hq
          exact BadD_cons g m i _ q h3.1 h3.2
      · -- guard fails: untouched
        have hres : insert_predecessors_recursively g (fuel + 1) m i = m := by
          rw [ipr_succ, if_neg hc, if_neg hg]
        rw [hres]
        refine ⟨fun k v h => h, hb, hn, hinv, le_refl _, ?_⟩
        intro p hp
        refine ⟨hp, ?_⟩
        intro he
        apply hg
        rw [List.all_eq_true]
        intro s hsm
        exact hp.1 s (he ▸ hsm)

theorem ipr_fold {CT : Type} (g : RawGraph CT) (hwf : g.WF) (fuel : Nat) :
    ∀ (ps : List Nat), (∀ p ∈ ps, p < g.n) →
    ∀ (m0 : List (Nat × Int)),
    (∀ k ∈ m0.map Prod.fst, k < g.n) →
    (m0.map Prod.fst).Nodup →
    InvD g m0 →
    g.n + 1 ≤ fuel + m0.length →
    (∀ k ∈ (ps.foldl (fun acc p =>
      insert_predecessors_recursively g fuel acc p) m0).map Prod.fst,
      k < g.n) ∧
    ((ps.foldl (fun acc p =>
      insert_predecessors_recursively g fuel acc p) m0).map Prod.fst).Nodup ∧
    InvD g (ps.foldl (fun acc p =>
      insert_predecessors_recursively g fuel acc p) m0) ∧
    m0.length ≤ (ps.foldl (fun acc p =>
      insert_predecessors_recursively g fuel acc p) m0).length ∧
    (∀ q, BadD g (ps.foldl (fun acc p =>
      insert_predecessors_recursively g fuel acc p) m0) q →
      BadD g m0 q ∧ q ∉ ps) := by
  intro ps
  induction ps with
  | nil =>
    intro _ m0 hb0 hn0 hinv0 _
    exact ⟨hb0, hn0, hinv0, le_refl _, fun q hq => ⟨hq, by simp⟩⟩
  | cons p ps' ihp =>
    intro hps m0 hb0 hn0 hinv0 hf0
    rw [List.foldl_cons]
    have h1 := ipr_master g hwf fuel m0 p (hps p (List.mem_cons_self p ps'))
      hb0 hn0 hinv0 hf0
    have h2 := ihp (fun q hq => hps q (List.mem_cons_of_mem p hq))
      (insert_predecessors_recursively g fuel m0 p)
      h1.2.1 h1.2.2.1 h1.2.2.2.1
      (by have h5 := h1.2.2.2.2.1; omega)
    refine ⟨h2.1, h2.2.1, h2.2.2.1, ?_, ?_⟩
    · have h5 := h1.2.2.2.2.1
      have h6 := h2.2.2.2.1
      omega
    · intro q hq
      have h3 := h2.2.2.2.2 q hq
      have h4 := h1.2.2.2.2.2 q h3.1
      refine ⟨h4.1, ?_⟩
      intro hmem
      rcases List.mem_cons.mp hmem with rfl | hmem'
      · exact h4.2 rfl
      · exact h3.2 hmem'

/-- After the construction loop over all sinks, the depth table satisfies
the local depth equation and no node of the graph is left overdue. -/
theorem depthsD_props {CT : Type} (g : RawGraph CT) (hwf : g.WF) :
    InvD g (depthsD g) ∧ ∀ p, p < g.n → ¬ BadD g (depthsD g) p := by
  have hps : ∀ p ∈ (List.range g.n).filter
      (fun i => (succsE g.edges i).isEmpty), p < g.n := by
    intro p hp
    exact List.mem_range.mp (List.mem_of_mem_filter hp)
  have H := ipr_fold g hwf (g.n + 1) _ hps []
    (by simp) (by simp) (fun p v h => by cases h) (by simp)
  refine ⟨H.2.2.1, ?_⟩
  intro p hp hbad
  have h1 := H.2.2.2.2 p hbad
  have hempty : succsE g.edges p = [] := by
    rcases h2 : succsE g.edges p with _ | ⟨s, rest⟩
    · rfl
    · exfalso
      have := h1.1.1 s (h2 ▸ List.mem_cons_self s rest)
      cases this
  apply h1.2
  apply List.mem_filter.mpr
  refine ⟨List.mem_range.mpr hp, ?_⟩
  simp [hempty]

/-- On a well-formed acyclic graph, every node receives a depth. -/
theorem depthsD_total {CT : Type} (g : RawGraph CT) (hwf : g.WF)
    (hacy : Acyclic g.edges) :
    ∀ i, i < g.n → (List.lookup i (depthsD g)).isSome = true := by
  classical
  have hprops := depthsD_props g hwf
  suffices H : ∀ c i, i < g.n →
      ((Finset.range g.n).filter (fun k => Reaches g.edges i k)).card ≤ c →
      (List.lookup i (depthsD g)).isSome = true by
    intro i hi
    exact H g.n i hi
      (le_trans (Finset.card_filter_le _ _) (by simp))
  intro c
  induction c with
  | zero =>
    intro i hi hc
    by_contra hnone
    have hempty : succsE g.edges i = [] := by
      rcases h2 : succsE g.edges i with _ | ⟨s, rest⟩
      · rfl
      · exfalso
        have hsr : EdgeRel g.edges i s :=
          mem_succsE.mp (h2 ▸ List.mem_cons_self s rest)
        have hslt : s < g.n := by
          rcases hsr with ⟨e, hee, _, htgt⟩
          exact htgt ▸ (hwf e hee).2
        have hmem : s ∈ (Finset.range g.n).filter
            (fun k => Reaches g.edges i k) :=
          Finset.mem_filter.mpr
            ⟨Finset.mem_range.mpr hslt, Relation.TransGen.single hsr⟩
        have := Finset.card_pos.mpr ⟨s, hmem⟩
        omega
    apply hprops.2 i hi
    refine ⟨?_, ?_⟩
    · intro s hsm
      rw [hempty] at hsm
      cases hsm
    · cases hl : List.lookup i (depthsD g) with
      | none => rfl
      | some v => rw [hl] at hnone; exact absurd rfl hnone
  | succ c ihc =>
    intro i hi hc
    by_contra hnone
    apply hprops.2 i hi
    refine ⟨?_, ?_⟩
    · intro s hsm
      have hsr : EdgeRel g.edges i s := mem_succsE.mp hsm
      have hslt : s < g.n := by
        rcases hsr with ⟨e, hee, _, htgt⟩
        exact htgt ▸ (hwf e hee).2
      have hsub : (Finset.range g.n).filter (fun k => Reaches g.edges s k)
          ⊆ (Finset.range g.n).filter (fun k => Reaches g.edges i k) := by
        intro k hk
        rcases Finset.mem_filter.mp hk with ⟨hk1, hk2⟩
        exact Finset.mem_filter.mpr ⟨hk1, Relation.TransGen.head hsr hk2⟩
      have hsmem : s ∈ (Finset.range g.n).filter
          (fun k => Reaches g.edges i k) :=
        Finset.mem_filter.mpr
          ⟨Finset.mem_range.mpr hslt, Relation.TransGen.single hsr⟩
      have hsnot : s ∉ (Finset.range g.n).filter
          (fun k => Reaches g.edges s k) := by
        intro hmem
        exact hacy s (Finset.mem_filter.mp hmem).2
      have hlt : ((Finset.range g.n).filter
            (fun k => Reaches g.edges s k)).card
          < ((Finset.range g.n).filter (fun k => Reaches g.edges i k)).card := by
        apply Finset.card_lt_card
        apply Finset.ssubset_iff_subset_ne.mpr
        refine ⟨hsub, ?_⟩
        intro he
        exact hsnot (he ▸ hsmem)
      exact ihc s hslt (by omega)
    · cases hl : List.lookup i (depthsD g) with
      | none => rfl
      | some v => rw [hl] at hnone; exact absurd rfl hnone

theorem acyclic_of_not_cyclic (n : Nat) (es : List Edge)
    (hwf : ∀ e ∈ es, e.src < n ∧ e.tgt < n)
    (h : isCyclicDirected n es = false) : Acyclic es := by
  intro i hr
  have hc := (isCyclicDirected_iff hwf).mpr ⟨i, hr⟩
  rw [h] at hc
  cases hc

/-- Amended claim C1: for every well-formed acyclic graph, `FheGraph`
construction succeeds and the priority stored on each node equals one plus
the maximum priority among its successors, the empty maximum counting as
zero — so a node with no successors (a sink) has priority one, not zero. -/
theorem priority_spec :
    ∀ (CT : Type) (g0 : RawGraph CT), g0.WF → Acyclic g0.edges →
    ∃ g, FheGraph.new g0 = some g ∧
      (∀ i, i < g0.n →
        priorityAt g i =
          (((succsE g0.edges i).map (fun s => priorityAt g s)).max?).getD 0
            + 1) ∧
      (∀ i, i < g0.n → succsE g0.edges i = [] → priorityAt g i = 1) := by
  intro CT g0 hwf hacy
  have htotal := depthsD_total g0 hwf hacy
  have hinv := (depthsD_props g0 hwf).1
  cases hds : mapO (fun i => List.lookup i (depthsD g0)) (List.range g0.n) with
  | none =>
    exfalso
    rcases (mapO_eq_none_iff _ _).mp hds with ⟨i, hi, hnone⟩
    have hsome := htotal i (List.mem_range.mp hi)
    rw [hnone] at hsome
    cases hsome
  | some ds =>
    have hget : ∀ j, j < g0.n →
        ∃ v, List.lookup j (depthsD g0) = some v ∧ ds[j]? = some v := by
      intro j hj
      have hrj : (List.range g0.n)[j]? = some j := List.getElem?_range hj
      rcases (mapO_eq_some_get _ _ hds).2 j j hrj with ⟨b, hfb, hbj⟩
      exact ⟨b, hfb, hbj⟩
    have hnode : ∀ j, j < g0.n → ∃ nd, g0.nodes[j]? = some nd := by
      intro j hj
      exact ⟨g0.nodes[j], List.getElem?_eq_getElem hj⟩
    have hpri : ∀ j, j < g0.n → ∀ v, List.lookup j (depthsD g0) = some v →
        priorityAt (⟨ds.zip g0.nodes, g0.edges,
          (g0.nodes.filter (fun nd => !nd.isComputedB)).length⟩ : FheGraph CT)
          j = v := by
      intro j hj v hv
      rcases hget j hj with ⟨v', hv', hdsj⟩
      rw [hv] at hv'
      injection hv' with hv'
      subst hv'
      rcases hnode j hj with ⟨nd, hnd⟩
      have hzip : (ds.zip g0.nodes)[j]? = some (v, nd) :=
        List.getElem?_zip_eq_some.mpr ⟨hdsj, hnd⟩
      unfold priorityAt
      rw [hzip]
      rfl
    have hsucclt : ∀ i s, s ∈ succsE g0.edges i → s < g0.n := by
      intro i s hsm
      rcases mem_succsE.mp hsm with ⟨e, hee, _, htgt⟩
      exact htgt ▸ (hwf e hee).2
    have heqn : ∀ i, i < g0.n →
        priorityAt (⟨ds.zip g0.nodes, g0.edges,
          (g0.nodes.filter (fun nd => !nd.isComputedB)).length⟩ : FheGraph CT)
          i =
          (((succsE g0.edges i).map (fun s =>
            priorityAt (⟨ds.zip g0.nodes, g0.edges,
              (g0.nodes.filter (fun nd => !nd.isComputedB)).length⟩ :
                FheGraph CT) s)).max?).getD 0 + 1 := by
      intro i hi
      rcases hget i hi with ⟨v, hvlook, _⟩
      rcases hinv i v hvlook with ⟨hsome, hveq⟩
      rw [hpri i hi v hvlook]
      have hmapeq : (succsE g0.edges i).map (fun s =>
          priorityAt (⟨ds.zip g0.nodes, g0.edges,
            (g0.nodes.filter (fun nd => !nd.isComputedB)).length⟩ :
              FheGraph CT) s)
          = (succsE g0.edges i).map
            (fun s => (List.lookup s (depthsD g0)).getD 0) := by
        apply List.map_congr_left
        intro s hsm
        have hslt := hsucclt i s hsm
        have hssome := hsome s hsm
        cases hw : List.lookup s (depthsD g0) with
        | none => rw [hw] at hssome; cases hssome
        | some w =>
          rw [hpri s hslt w hw]
          rfl
      rw [hmapeq]
      exact hveq
    refine ⟨⟨ds.zip g0.nodes, g0.edges,
      (g0.nodes.filter (fun nd => !nd.isComputedB)).length⟩, ?_, heqn, ?_⟩
    · unfold FheGraph.new
      dsimp only
      rw [hds]
    · intro i hi hempty
      rw [heqn i hi, hempty]
      rfl

/-- Witness for the amended C1 at the concrete diamond graph. -/
theorem priority_spec_witness :
    ∃ g, FheGraph.new dRaw = some g ∧
      (∀ i, i < dRaw.n →
        priorityAt g i =
          (((succsE dRaw.edges i).map (fun s => priorityAt g s)).max?).getD 0
            + 1) ∧
      (∀ i, i < dRaw.n → succsE dRaw.edges i = [] → priorityAt g i = 1) :=
  priority_spec Int dRaw
    (by intro e he; fin_cases he <;> exact ⟨by decide, by decide⟩)
    (acyclic_of_not_cyclic 4 dRaw.edges
      (by intro e he; fin_cases he <;> exact ⟨by decide, by decide⟩)
      (by decide))

/-- Counterexample to C1 as stated: a node with no successors receives
stored priority 1 after construction, not the 0 the claim asserts. -/
theorem sink_priority_one :
    FheGraph.new sRaw = some sG ∧ succsE sRaw.edges 0 = [] ∧
    priorityAt sG 0 = 1 ∧ ¬ priorityAt sG 0 = 0 := by decide

end Mpi
